import Mathlib

/-!
Verification of the Lens-os agent core: the streaming tool-call extractor
(`ToolParser`), the conversation memory store (`MemoryManager`) and the
turn-loop orchestrator (`SupervisorAgent`), shallowly embedded from the
TypeScript source.  Text is modelled as `List Char`; the external
collaborators (model stream, durable backend, summarization LLM, tool
executors) are modelled as explicit parameters, so every function here is
a pure, executable translation of the corresponding source function.
-/

namespace LensOS

/-- Text, modelled as a list of characters (the TS code manipulates
JavaScript strings; all delimiters involved are ASCII). -/
abbrev Chars := List Char

/-! ## Substring search (JS `String.prototype.indexOf`) -/

/-- `occursAt needle hay i` holds when `needle` occurs in `hay` starting at
index `i`. -/
abbrev occursAt (needle hay : Chars) (i : Nat) : Prop :=
  (hay.drop i).take needle.length = needle

/-- Index of the first occurrence of `needle` in `hay`, as JS
`hay.indexOf(needle)` computes it (`none` encodes `-1`). -/
def firstOcc (needle hay : Chars) : Option Nat :=
  if (hay.take needle.length) = needle then some 0
  else
    match hay with
    | [] => none
    | _ :: t => (firstOcc needle t).map (· + 1)

/-- The opening delimiter `<tool>` scanned for by `ToolParser.addChunk`. -/
def openTagL : Chars := "<tool>".data

/-- The closing delimiter `</tool>` scanned for by `ToolParser.addChunk`. -/
def closeTagL : Chars := "</tool>".data

/-! ## JSON values (`JSON.parse` / `JSON.stringify`)

Tool parameters are the result of `JSON.parse` on the captured parameters
text, and tool-call deduplication keys are produced by `JSON.stringify`;
both are modelled here.  Objects keep their fields in JS property order
(insertion order for the string keys that occur in this code base). -/

mutual

inductive Json where
  | null : Json
  | bool (b : Bool) : Json
  | num (n : Int) : Json
  | str (s : Chars) : Json
  | arr (elems : JsonArr) : Json
  | obj (fields : JsonObj) : Json

inductive JsonArr where
  | nil : JsonArr
  | cons (hd : Json) (tl : JsonArr) : JsonArr

inductive JsonObj where
  | nil : JsonObj
  | cons (key : Chars) (val : Json) (tl : JsonObj) : JsonObj

end

def JsonObj.hasKey : JsonObj → Chars → Bool
  | .nil, _ => false
  | .cons k _ t, key => k == key || t.hasKey key

def JsonObj.setFirst : JsonObj → Chars → Json → JsonObj
  | .nil, _, _ => .nil
  | .cons k v t, key, newV =>
    if k == key then .cons k newV t else .cons k v (t.setFirst key newV)

def JsonObj.appendField : JsonObj → Chars → Json → JsonObj
  | .nil, k, v => .cons k v .nil
  | .cons k0 v0 t, k, v => .cons k0 v0 (t.appendField k v)

/-- JS property assignment: an existing key keeps its position and gets the
new value, a new key is appended at the end. -/
def JsonObj.assign (fs : JsonObj) (key : Chars) (v : Json) : JsonObj :=
  if fs.hasKey key then fs.setFirst key v else fs.appendField key v

def JsonArr.appendElem : JsonArr → Json → JsonArr
  | .nil, x => .cons x .nil
  | .cons h t, x => .cons h (t.appendElem x)

/-- JSON grammar whitespace. -/
def isJsonWs (c : Char) : Bool :=
  c == ' ' || c == '\t' || c == '\n' || c == '\r'

def skipJsonWs (s : Chars) : Chars := s.dropWhile isJsonWs

def isDigitCh (c : Char) : Bool := '0' ≤ c && c ≤ '9'

def digitsVal : Chars → Nat → Nat
  | [], acc => acc
  | c :: t, acc => digitsVal t (acc * 10 + (c.toNat - '0'.toNat))

/-- Body of a JSON string literal after the opening quote: returns the
decoded content and the text after the closing quote. -/
def parseStringBody : Chars → Option (Chars × Chars)
  | [] => none
  | '"' :: t => some ([], t)
  | '\\' :: c :: t =>
    let dec : Option Char :=
      match c with
      | '"' => some '"'
      | '\\' => some '\\'
      | '/' => some '/'
      | 'n' => some '\n'
      | 't' => some '\t'
      | 'r' => some '\r'
      | 'b' => some '\x08'
      | 'f' => some '\x0c'
      | _ => none
    match dec with
    | none => none
    | some d =>
      match parseStringBody t with
      | none => none
      | some (strv, rest) => some (d :: strv, rest)
  | '\\' :: [] => none
  | c :: t =>
    match parseStringBody t with
    | none => none
    | some (strv, rest) => some (c :: strv, rest)

inductive JParseMode where
  | value : JParseMode
  | objMembers (acc : JsonObj) : JParseMode
  | arrElems (acc : JsonArr) : JParseMode

inductive JParseOut where
  | v (j : Json) : JParseOut
  | o (fs : JsonObj) : JParseOut
  | a (xs : JsonArr) : JParseOut

/-- Recursive-descent parser modelling `JSON.parse` on the standard JSON
grammar with integer numeric literals (fractional/exponent forms and
`\uXXXX` escapes do not occur in any input considered here; they are
rejected).  `fuel` bounds the recursion depth and is instantiated above
any possible depth for the given input by `jsonParse`. -/
def parseJ : Nat → JParseMode → Chars → Option (JParseOut × Chars)
  | 0, _, _ => none
  | fuel + 1, .value, s0 =>
    match skipJsonWs s0 with
    | [] => none
    | c :: t =>
      if c == 'n' then
        if t.take 3 = "ull".data then some (.v .null, t.drop 3) else none
      else if c == 't' then
        if t.take 3 = "rue".data then some (.v (.bool true), t.drop 3) else none
      else if c == 'f' then
        if t.take 4 = "alse".data then some (.v (.bool false), t.drop 4) else none
      else if c == '"' then
        match parseStringBody t with
        | some (strv, rest) => some (.v (.str strv), rest)
        | none => none
      else if c == '\x7b' then
        match skipJsonWs t with
        | '\x7d' :: rest => some (.v (.obj .nil), rest)
        | _ =>
          match parseJ fuel (.objMembers .nil) t with
          | some (.o fs, rest) => some (.v (.obj fs), rest)
          | _ => none
      else if c == '[' then
        match skipJsonWs t with
        | ']' :: rest => some (.v (.arr .nil), rest)
        | _ =>
          match parseJ fuel (.arrElems .nil) t with
          | some (.a xs, rest) => some (.v (.arr xs), rest)
          | _ => none
      else if c == '-' then
        match t with
        | d :: _ =>
          if isDigitCh d then
            some (.v (.num (-(digitsVal (t.takeWhile isDigitCh) 0 : Int))),
              t.dropWhile isDigitCh)
          else none
        | [] => none
      else if isDigitCh c then
        some (.v (.num (digitsVal ((c :: t).takeWhile isDigitCh) 0)),
          (c :: t).dropWhile isDigitCh)
      else none
  | fuel + 1, .objMembers acc, s0 =>
    match skipJsonWs s0 with
    | '"' :: t =>
      match parseStringBody t with
      | none => none
      | some (key, rest1) =>
        match skipJsonWs rest1 with
        | ':' :: rest2 =>
          match parseJ fuel .value rest2 with
          | some (.v v, rest3) =>
            match skipJsonWs rest3 with
            | ',' :: rest4 => parseJ fuel (.objMembers (acc.assign key v)) rest4
            | '\x7d' :: rest4 => some (.o (acc.assign key v), rest4)
            | _ => none
          | _ => none
        | _ => none
    | _ => none
  | fuel + 1, .arrElems acc, s0 =>
    match parseJ fuel .value s0 with
    | some (.v v, rest) =>
      match skipJsonWs rest with
      | ',' :: rest2 => parseJ fuel (.arrElems (acc.appendElem v)) rest2
      | ']' :: rest2 => some (.a (acc.appendElem v), rest2)
      | _ => none
    | _ => none

/-- `JSON.parse`: a complete document, allowing trailing whitespace only. -/
def jsonParse (s : Chars) : Option Json :=
  match parseJ (2 * s.length + 2) .value s with
  | some (.v v, rest) => if (skipJsonWs rest).isEmpty then some v else none
  | _ => none

def escapeJsonChar (c : Char) : Chars :=
  if c == '"' then ['\\', '"']
  else if c == '\\' then ['\\', '\\']
  else if c == '\n' then ['\\', 'n']
  else if c == '\t' then ['\\', 't']
  else if c == '\r' then ['\\', 'r']
  else [c]

def escapeJson : Chars → Chars
  | [] => []
  | c :: t => escapeJsonChar c ++ escapeJson t

mutual

/-- `JSON.stringify` (no indentation), emitting object fields in property
order. -/
def jsonStringify : Json → Chars
  | .null => "null".data
  | .bool true => "true".data
  | .bool false => "false".data
  | .num n => (toString n).data
  | .str s => '"' :: (escapeJson s ++ ['"'])
  | .arr xs => '[' :: (jsonStringifyArr xs ++ [']'])
  | .obj fs => '\x7b' :: (jsonStringifyObj fs ++ ['\x7d'])

def jsonStringifyArr : JsonArr → Chars
  | .nil => []
  | .cons x .nil => jsonStringify x
  | .cons x (.cons y t) => jsonStringify x ++ ',' :: jsonStringifyArr (.cons y t)

def jsonStringifyObj : JsonObj → Chars
  | .nil => []
  | .cons k v .nil => '"' :: (escapeJson k ++ '"' :: ':' :: jsonStringify v)
  | .cons k v (.cons k2 v2 t) =>
    ('"' :: (escapeJson k ++ '"' :: ':' :: jsonStringify v)) ++
      ',' :: jsonStringifyObj (.cons k2 v2 t)

end

/-! ## Tool-call extraction (`ToolParser`) -/

/-- A parsed tool invocation (`{name, parameters}`). -/
structure ToolCall where
  name : Chars
  parameters : Json

def nameLitL : Chars := "name:".data

def paramsLitL : Chars := "parameters:".data

/-- The characters matched by the JS regex class `\s`, restricted to the
ASCII range (all inputs considered are ASCII). -/
def isWsChar (c : Char) : Bool :=
  c == ' ' || c == '\t' || c == '\n' || c == '\r' || c == '\x0b' || c == '\x0c'

/-- JS `String.prototype.trim`. -/
def trimChars (s : Chars) : Chars :=
  ((s.dropWhile isWsChar).reverse.dropWhile isWsChar).reverse

/-- Largest index holding a character other than a newline. -/
def lastNonNl : Chars → Option Nat
  | [] => none
  | c :: t =>
    match lastNonNl t with
    | some i => some (i + 1)
    | none => if c == '\n' then none else some 0

/-- The tail of the regex `name:\s*(.+?)(?:\n|$)` matched at a fixed
occurrence of `name:` (`rest` is the text after the literal): the greedy
`\s*` advances to the first non-whitespace character; the lazy group then
captures up to the next newline or the end of the text.  When the
remainder is all whitespace the engine backtracks `\s*` to the last
position holding a non-newline character; if every character is a newline
the match at this occurrence fails. -/
def matchNameAt (rest : Chars) : Option Chars :=
  let w := (rest.takeWhile isWsChar).length
  if w < rest.length then
    some ((rest.drop w).takeWhile (fun c => c != '\n'))
  else
    match lastNonNl rest with
    | some i => some ((rest.drop i).takeWhile (fun c => c != '\n'))
    | none => none

/-- Leftmost match of `name:\s*(.+?)(?:\n|$)`: try every occurrence of the
literal `name:` from the left. -/
def findNameCapture : Chars → Option Chars
  | [] => none
  | c :: t =>
    if (c :: t).take 5 = nameLitL then
      match matchNameAt ((c :: t).drop 5) with
      | some cap => some cap
      | none => findNameCapture t
    else findNameCapture t

/-- Largest index holding the given character. -/
def lastIndexOfCh (ch : Char) : Chars → Option Nat
  | [] => none
  | c :: t =>
    match lastIndexOfCh ch t with
    | some i => some (i + 1)
    | none => if c == ch then some 0 else none

/-- The tail of the regex `parameters:\s*(\{[\s\S]*\})` matched at a fixed
occurrence of `parameters:`: after the greedy `\s*` the next character
must be `{` (no other backtracking of `\s*` can succeed, `{` not being
whitespace), and the greedy `[\s\S]*` makes the group end at the last `}`
of the remaining text, which must lie past the `{`. -/
def matchParamsAt (rest : Chars) : Option Chars :=
  let w := (rest.takeWhile isWsChar).length
  if rest.getD w ' ' == '\x7b' then
    match lastIndexOfCh '\x7d' rest with
    | some j => if w < j then some ((rest.drop w).take (j - w + 1)) else none
    | none => none
  else none

/-- Leftmost match of `parameters:\s*(\{[\s\S]*\})`. -/
def findParamsCapture : Chars → Option Chars
  | [] => none
  | c :: t =>
    if (c :: t).take 11 = paramsLitL then
      match matchParamsAt ((c :: t).drop 11) with
      | some cap => some cap
      | none => findParamsCapture t
    else findParamsCapture t

/-- `ToolParser.parseToolContent`: extract `name:` and `parameters:` from
the inside of a tool block; a missing `name:` yields `none`; malformed
JSON parameters degrade to `{raw: <captured text>}` (untrimmed, as in the
source); a missing `parameters:` yields `{}`. -/
def parseToolContent (content : Chars) : Option ToolCall :=
  match findNameCapture content with
  | none => none
  | some cap =>
    let parameters : Json :=
      match findParamsCapture content with
      | none => .obj .nil
      | some pcap =>
        match jsonParse (trimChars pcap) with
        | some v => v
        | none => .obj (.cons "raw".data (.str pcap) .nil)
    some ⟨trimChars cap, parameters⟩

/-- The mutable state of a `ToolParser` instance: the undecided outer
buffer, the inside-a-tool-block flag, and the tool-block buffer. -/
structure PState where
  buffer : Chars
  inToolBlock : Bool
  toolBuffer : Chars

/-- A fresh `ToolParser`. -/
def pInit : PState := ⟨[], false, []⟩

/-- The result of one `addChunk` call: the plain text resolved outside any
tool block, the tool calls completed during the call, and the updated
parser state.  (The source returns `toolCalls: null` for an empty list;
the list itself carries the same information.) -/
structure ScanOut where
  text : Chars
  calls : List ToolCall
  state : PState

def optToolCalls : Option ToolCall → List ToolCall
  | some c => [c]
  | none => []

/-- The `while` loop of `ToolParser.addChunk`, written with explicit fuel
so that the definition stays kernel-executable; the wrapper `scan` always
supplies more fuel than the loop can consume (`scanF_fuel_sufficient`).
Outside a tool block the loop searches the buffer for `<tool>`; finding
none it emits all but the trailing 6 characters (when longer than 6) and
stops; finding one it emits the prefix and enters the block.  Inside a
block the buffer is moved into the tool buffer and the loop searches the
accumulated tool buffer for `</tool>`; finding none it stops, finding one
it parses the block content, pushes the text after the delimiter back
into the buffer, and continues. -/
def scanF : Nat → PState → ScanOut
  | 0, s => ⟨[], [], s⟩
  | _ + 1, ⟨[], inb, tbuf⟩ => ⟨[], [], ⟨[], inb, tbuf⟩⟩
  | fuel + 1, ⟨b :: bs, false, tbuf⟩ =>
    match firstOcc openTagL (b :: bs) with
    | none =>
      if 6 < (b :: bs).length then
        ⟨(b :: bs).take ((b :: bs).length - 6), [],
          ⟨(b :: bs).drop ((b :: bs).length - 6), false, tbuf⟩⟩
      else ⟨[], [], ⟨b :: bs, false, tbuf⟩⟩
    | some i =>
      let r := scanF fuel ⟨(b :: bs).drop (i + 6), true, []⟩
      ⟨(b :: bs).take i ++ r.text, r.calls, r.state⟩
  | fuel + 1, ⟨b :: bs, true, tbuf⟩ =>
    match firstOcc closeTagL (tbuf ++ b :: bs) with
    | none => ⟨[], [], ⟨[], true, tbuf ++ b :: bs⟩⟩
    | some j =>
      let r := scanF fuel ⟨(tbuf ++ b :: bs).drop (j + 7), false, []⟩
      ⟨r.text,
        optToolCalls (parseToolContent ((tbuf ++ b :: bs).take j)) ++ r.calls,
        r.state⟩

/-- Upper bound (exclusive) on the steps the `addChunk` loop can take. -/
def pMeasure (s : PState) : Nat := s.buffer.length + s.toolBuffer.length

/-- The `while` loop of `ToolParser.addChunk` run on a parser state. -/
def scan (s : PState) : ScanOut := scanF (pMeasure s + 1) s

/-- `ToolParser.addChunk`: append the chunk to the buffer, run the loop. -/
def addChunk (s : PState) (chunk : Chars) : ScanOut :=
  scan ⟨s.buffer ++ chunk, s.inToolBlock, s.toolBuffer⟩

/-- The text returned by `ToolParser.flush` (the remaining outer buffer;
an unterminated tool block's buffer is discarded). -/
def flushText (s : PState) : Chars := s.buffer

/-- Feed fragments one at a time through a single parser, concatenating
the text and the tool calls of each `addChunk` call. -/
def foldFrags (s : PState) : List Chars → ScanOut
  | [] => ⟨[], [], s⟩
  | c :: rest =>
    let r := addChunk s c
    let r2 := foldFrags r.state rest
    ⟨r.text ++ r2.text, r.calls ++ r2.calls, r2.state⟩

/-- All `addChunk` outputs over the fragment list, followed by `flush`:
the total plain text and the full tool-call sequence of one streamed
response. -/
def feedAll (frags : List Chars) : Chars × List ToolCall :=
  let r := foldFrags pInit frags
  (r.text ++ flushText r.state, r.calls)

def joinAll (frags : List Chars) : Chars := frags.foldr (· ++ ·) []

/-! ## Conversation memory store (`MemoryManager`)

The durable-backend sync is fire-and-forget and never touches the cache;
the model below is the cache-level behaviour, with the summarization LLM
call abstracted as an explicit outcome parameter. -/

inductive Role where
  | user : Role
  | assistant : Role
  | system : Role
  | tool : Role
deriving DecidableEq

inductive ContentPart where
  | textPart (s : Chars) : ContentPart
  | imagePart : ContentPart

inductive MsgContent where
  | str (s : Chars) : MsgContent
  | parts (ps : List ContentPart) : MsgContent

structure Message where
  role : Role
  content : MsgContent
  timestamp : Nat

structure CompactedMemory where
  summary : Chars
  fromId : Nat
  toId : Nat
  messageCount : Nat

/-- `Math.ceil(len / 2.5)` over the naturals. -/
def ceilTokens (len : Nat) : Nat := (2 * len + 4) / 5

/-- Token estimate of one content part: `ceil(text.length / 2.5)` for a
text part (the source skips empty text via truthiness, which adds 0 all
the same), a fixed 85 for an image part. -/
def partTokens : ContentPart → Nat
  | .textPart s => ceilTokens s.length
  | .imagePart => 85

def contentTokens : MsgContent → Nat
  | .str s => ceilTokens s.length
  | .parts ps => ps.foldl (fun acc p => acc + partTokens p) 0

/-- `MemoryManager.estimateTokens`. -/
def estimateTokens (messages : List Message) : Nat :=
  messages.foldl (fun acc m => acc + contentTokens m.content) 0

/-- `MemoryManager.shouldCompact` (`COMPACT_THRESHOLD = 15`,
`MAX_MESSAGES = 20`, `MAX_TOKENS_ESTIMATE = 8000`). -/
def shouldCompact (messages : List Message) : Bool :=
  if messages.length < 15 then false
  else decide (messages.length > 20) || decide (estimateTokens messages > 8000)

/-- `MemoryManager.saveMessage` restricted to the cache: append the new
message to the cached log and report whether compaction is triggered
(the API sync is fire-and-forget and does not affect the cache). -/
def saveMessage (cache : List Message) (role : Role) (content : MsgContent)
    (now : Nat) : List Message × Bool :=
  let cache' := cache ++ [⟨role, content, now⟩]
  (cache', shouldCompact cache')

/-- Outcome of the summarization LLM call inside
`MemoryManager.generateSummary`: an exception, or a response whose
`choices[0]?.message?.content` is absent (`none`) or a string. -/
abbrev SummarizeResult := Except Unit (Option Chars)

/-- `MemoryManager.generateSummary`: the summary text it returns.  The
method never throws: an LLM error is caught and degrades to the literal
`"Summary generation failed"`; a missing or empty content degrades to
`"Summary unavailable"`.  (The prompt construction, which looks for a
previous `[Memory Summary]` among the messages, only affects the text
sent to the external model, not the shape of the result.) -/
def generateSummary (_toCompact : List Message) (llm : SummarizeResult) : Chars :=
  match llm with
  | .error _ => "Summary generation failed".data
  | .ok none => "Summary unavailable".data
  | .ok (some s) => if s.isEmpty then "Summary unavailable".data else s

def mkSummaryMessage (summary : Chars) (now : Nat) : Message :=
  ⟨.system, .str ("[Memory Summary]\n".data ++ summary), now⟩

/-- `MemoryManager.compactMemory` acting on one session's cached log and
compaction records (`KEEP_RECENT = 10`): below 15 cached messages it
returns unchanged; otherwise it summarizes all but the last 10 messages,
appends a `CompactedMemory` record, and replaces the cache with the
summary message followed by the kept suffix. -/
def compactMemory (cache : List Message) (compacted : List CompactedMemory)
    (llm : SummarizeResult) (now : Nat) :
    List Message × List CompactedMemory :=
  if cache.length < 15 then (cache, compacted)
  else if (cache.take (cache.length - 10)).length = 0 then (cache, compacted)
  else
    (mkSummaryMessage
        (generateSummary (cache.take (cache.length - 10)) llm) now
      :: cache.drop (cache.length - 10),
      compacted ++ [⟨generateSummary (cache.take (cache.length - 10)) llm, 0,
        (cache.take (cache.length - 10)).length,
        (cache.take (cache.length - 10)).length⟩])

/-- One `saveMessage` call followed by the compaction it fires, when it
fires one (`saveMessage` launches `compactMemory` whenever
`shouldCompact` holds; this driver runs it to completion before the next
append). -/
def appendAndCompact (st : List Message × List CompactedMemory) (role : Role)
    (content : MsgContent) (now : Nat) (llm : SummarizeResult) :
    List Message × List CompactedMemory :=
  let r := saveMessage st.1 role content now
  if r.2 then compactMemory r.1 st.2 llm now else (r.1, st.2)

/-- A session receiving `n` short (`"hi"`) user messages one per call,
with a summarizer that returns `"S"`. -/
def shortRun (n : Nat) : List Message × List CompactedMemory :=
  (List.range n).foldl
    (fun st i =>
      appendAndCompact st .user (.str "hi".data) i (.ok (some "S".data)))
    ([], [])

/-! ## Turn-loop orchestrator (`SupervisorAgent`) -/

inductive AgentEvent where
  | text (content : Chars) : AgentEvent
  | toolCall (tc : ToolCall) : AgentEvent
  | toolResult (tc : ToolCall) (result : Json) : AgentEvent
  | errorEv (msg : Chars) : AgentEvent
  | done : AgentEvent

/-- The key `SupervisorAgent.deduplicateToolCalls` builds for each call:
`JSON.stringify({name: tc.name, parameters: tc.parameters})`. -/
def dedupKey (tc : ToolCall) : Chars :=
  jsonStringify (Json.obj (.cons "name".data (.str tc.name)
    (.cons "parameters".data tc.parameters .nil)))

def dedupGo (seen : List Chars) : List ToolCall → List ToolCall
  | [] => []
  | tc :: rest =>
    if seen.contains (dedupKey tc) then dedupGo seen rest
    else tc :: dedupGo (dedupKey tc :: seen) rest

/-- `SupervisorAgent.deduplicateToolCalls`: drop every call whose
serialized key has already been seen, keeping first-seen order. -/
def deduplicateToolCalls (toolCalls : List ToolCall) : List ToolCall :=
  dedupGo [] toolCalls

/-- The tool-execution phase of one turn (`SupervisorAgent.execute`):
execute every deduplicated call (`executeTool`, abstracted as `exec`) and
emit one `tool_result` event per executed call, in the stable detected
order. -/
def runTools (exec : ToolCall → Json) (toolCalls : List ToolCall) :
    List AgentEvent :=
  (deduplicateToolCalls toolCalls).map (fun tc => .toolResult tc (exec tc))

/-- Whether the cancellation signal is observed before consuming the
fragment at index `i` of the current turn's stream: `abortAt = some k`
models a signal set just before fragment `k` is read. -/
def chunkAborted (abortAt : Option Nat) (i : Nat) : Bool :=
  match abortAt with
  | none => false
  | some k => k ≤ i

/-- The `for await` loop of `SupervisorAgent.streamLLM`: per fragment it
checks the cancellation signal (stopping consumption when set), skips
empty content, feeds the content to the `ToolParser`, emits the returned
text unless a tool call was already detected this turn, records the raw
content, and emits a `tool_call` event per newly parsed call (setting the
text-suppression flag).  Returns the emitted events, the raw chunks, the
parsed calls, and the final parser state and flag. -/
def streamGo (abortAt : Option Nat) :
    Nat → PState → Bool → List Chars →
      List AgentEvent × List Chars × List ToolCall × PState × Bool
  | _, ps, hasTool, [] => ([], [], [], ps, hasTool)
  | i, ps, hasTool, c :: rest =>
    if chunkAborted abortAt i then ([], [], [], ps, hasTool)
    else if c.isEmpty then streamGo abortAt (i + 1) ps hasTool rest
    else
      let r := addChunk ps c
      let textEvs : List AgentEvent :=
        if !r.text.isEmpty && !hasTool then [.text r.text] else []
      let hasTool' := hasTool || !r.calls.isEmpty
      let callEvs : List AgentEvent := r.calls.map .toolCall
      match streamGo abortAt (i + 1) r.state hasTool' rest with
      | (evs, chunks, calls, ps', h') =>
        (textEvs ++ callEvs ++ evs, c :: chunks, r.calls ++ calls, ps', h')

structure StreamOut where
  events : List AgentEvent
  response : Chars
  toolCalls : List ToolCall

/-- `SupervisorAgent.streamLLM` for one turn, over the model's fragment
list and the cancellation point: the stream loop, then the parser flush
(emitted as a text event only when no tool call was detected this turn),
the concatenated raw response, and the parsed tool calls.  (Trace
persistence and memory writes are external effects with no event
output.) -/
def streamTurn (frags : List Chars) (abortAt : Option Nat) : StreamOut :=
  match streamGo abortAt 0 pInit false frags with
  | (evs, _chunks, calls, ps, hasTool) =>
    let remaining := flushText ps
    let flushEvs : List AgentEvent :=
      if !remaining.isEmpty && !hasTool then [.text remaining] else []
    ⟨evs ++ flushEvs, joinAll _chunks, calls⟩

/-- Whether the cancellation signal is already observed at the top-of-turn
check of turn `turnNo` (1-based): `some (t, f)` models a signal set during
turn `t`, just before its fragment `f` is consumed. -/
def topAborted (abortPt : Option (Nat × Nat)) (turnNo : Nat) : Bool :=
  match abortPt with
  | none => false
  | some (t, _) => t < turnNo

/-- The per-turn cancellation point seen by `streamTurn` for turn
`turnNo`. -/
def turnAbortIdx (abortPt : Option (Nat × Nat)) (turnNo : Nat) : Option Nat :=
  match abortPt with
  | none => none
  | some (t, f) =>
    if t = turnNo then some f else if t < turnNo then some 0 else none

/-- The `while (turnCount < maxTurns)` loop of `SupervisorAgent.execute`
together with the `turnCount >= maxTurns` check that follows it.  `rem`
is the number of turns the loop may still run (`maxTurns - turnCount`);
at zero the loop exits and the post-check emits the turn-limit error.
Each iteration: cancellation check (aborted error, stop — the loop then
exits with `turnCount < maxTurns`, so no turn-limit error follows);
stream the turn's response; with no tool calls emit `done` and stop
(followed by the post-loop turn-limit error exactly when the completed
turn was the last allowed one); with tool calls execute them and emit
their results, then continue. -/
def execGo (maxTurns : Nat) (turns : Nat → List Chars)
    (abortPt : Option (Nat × Nat)) (exec : ToolCall → Json) :
    Nat → Nat → List AgentEvent
  | 0, _ => [.errorEv "Max turns reached".data]
  | rem + 1, turnCount =>
    if topAborted abortPt (turnCount + 1) then
      [.errorEv "Execution aborted by user".data]
    else
      let so := streamTurn (turns (turnCount + 1))
        (turnAbortIdx abortPt (turnCount + 1))
      if so.toolCalls.isEmpty then
        so.events ++ [.done]
          ++ (if maxTurns ≤ turnCount + 1 then
              [.errorEv "Max turns reached".data] else [])
      else
        so.events ++ runTools exec so.toolCalls
          ++ execGo maxTurns turns abortPt exec rem (turnCount + 1)

/-- `SupervisorAgent.execute`: the lifecycle events of one run, over the
per-turn model responses (`turns n` is the fragment list of turn `n`),
the cancellation point, and the tool executor. -/
def executeModel (maxTurns : Nat) (turns : Nat → List Chars)
    (abortPt : Option (Nat × Nat)) (exec : ToolCall → Json) :
    List AgentEvent :=
  execGo maxTurns turns abortPt exec maxTurns 0

/-! ## Spec-modelled canonical equality, and event predicates -/

/-- Lexicographic order on character lists (by code point). -/
def charsLeB : Chars → Chars → Bool
  | [], _ => true
  | _ :: _, [] => false
  | a :: as, b :: bs =>
    if a.toNat < b.toNat then true
    else if b.toNat < a.toNat then false
    else charsLeB as bs

def insertFieldSorted (k : Chars) (v : Json) : JsonObj → JsonObj
  | .nil => .cons k v .nil
  | .cons k2 v2 t =>
    if charsLeB k k2 then .cons k v (.cons k2 v2 t)
    else .cons k2 v2 (insertFieldSorted k v t)

def sortFields : JsonObj → JsonObj
  | .nil => .nil
  | .cons k v t => insertFieldSorted k v (sortFields t)

mutual

/-- Modelled from the spec: a canonical, key-order-insensitive form of a
JSON value (object fields sorted recursively). -/
def canonJson : Json → Json
  | .null => .null
  | .bool b => .bool b
  | .num n => .num n
  | .str s => .str s
  | .arr xs => .arr (canonArr xs)
  | .obj fs => .obj (sortFields (canonObj fs))

def canonArr : JsonArr → JsonArr
  | .nil => .nil
  | .cons x t => .cons (canonJson x) (canonArr t)

def canonObj : JsonObj → JsonObj
  | .nil => .nil
  | .cons k v t => .cons k (canonJson v) (canonObj t)

end

/-- Modelled from the spec: "Equality for deduplication is structural
equality of `(name, parameters)` after canonical serialization" —
equality of the canonical serializations of `{name, parameters}`. -/
def specCanonicalEq (a b : ToolCall) : Bool :=
  jsonStringify (canonJson (Json.obj (.cons "name".data (.str a.name)
      (.cons "parameters".data a.parameters .nil))))
    == jsonStringify (canonJson (Json.obj (.cons "name".data (.str b.name)
      (.cons "parameters".data b.parameters .nil))))

def isTextEv : AgentEvent → Bool
  | .text _ => true
  | _ => false

def isToolCallEv : AgentEvent → Bool
  | .toolCall _ => true
  | _ => false

/-- Checks that no `text` event occurs anywhere after a `tool_call`
event. -/
def noTextAfterToolEv : List AgentEvent → Bool
  | [] => true
  | .toolCall _ :: rest => rest.all (fun ev => !isTextEv ev)
  | _ :: rest => noTextAfterToolEv rest

/-- Recognizes a `tool_result` event whose call has the given dedup key. -/
def isResultForKey (k : Chars) : AgentEvent → Bool
  | .toolResult tc _ => dedupKey tc == k
  | _ => false

/-- A trivial tool executor for concrete runs. -/
def exec0 : ToolCall → Json := fun _ => Json.null

/-- A 1400-character user message (estimated 560 tokens). -/
def longMsg : Message := ⟨.user, .str (List.replicate 1400 'a'), 0⟩

/-- A cache of exactly 15 long messages (estimated 8400 tokens). -/
def longCache : List Message := List.replicate 15 longMsg

/-- A cache of 15 one-character user messages with timestamps 0..14. -/
def cache15 : List Message :=
  (List.range 15).map (fun i => ⟨.user, .str "a".data, i⟩)

theorem occursAt_succ {n : Chars} {c : Char} {t : Chars} {i : Nat} :
    occursAt n (c :: t) (i + 1) ↔ occursAt n t i := by
  simp [occursAt]

/-- An occurrence of a nonempty needle fits inside the haystack. -/
theorem occursAt_bound {n h : Chars} {i : Nat} (hn : n ≠ [])
    (ho : occursAt n h i) : i + n.length ≤ h.length := by
  have hlen : ((h.drop i).take n.length).length = n.length := by rw [ho]
  rw [List.length_take, List.length_drop] at hlen
  have h4 : 0 < n.length := List.length_pos.mpr hn
  omega

theorem firstOcc_nil {n : Chars} :
    firstOcc n [] = if n = [] then some 0 else none := by
  unfold firstOcc
  by_cases hn : n = [] <;> simp [hn, eq_comm]

theorem firstOcc_cons {n : Chars} {c : Char} {t : Chars} :
    firstOcc n (c :: t) =
      if (c :: t).take n.length = n then some 0
      else (firstOcc n t).map (· + 1) := by
  conv_lhs => unfold firstOcc

theorem firstOcc_eq_none_iff {n h : Chars} :
    firstOcc n h = none ↔ ∀ i, ¬ occursAt n h i := by
  induction h with
  | nil =>
    rw [firstOcc_nil]
    by_cases hn : n = []
    · subst hn
      simp [occursAt]
    · simp only [hn, if_false, true_iff]
      intro i ho
      exact hn (by simpa [occursAt] using ho.symm)
  | cons c t ih =>
    rw [firstOcc_cons]
    by_cases hp : (c :: t).take n.length = n
    · simp only [hp, if_true]
      constructor
      · intro hc; exact absurd hc (by simp)
      · intro hall
        exact absurd hp (hall 0)
    · simp only [hp, if_false, Option.map_eq_none']
      rw [ih]
      constructor
      · intro hall i
        match i with
        | 0 => exact hp
        | j + 1 => rw [occursAt_succ]; exact hall j
      · intro hall j
        have := hall (j + 1)
        rwa [occursAt_succ] at this

theorem firstOcc_eq_some_iff {n h : Chars} {i : Nat} :
    firstOcc n h = some i ↔
      occursAt n h i ∧ ∀ j < i, ¬ occursAt n h j := by
  induction h generalizing i with
  | nil =>
    rw [firstOcc_nil]
    by_cases hn : n = []
    · subst hn
      rw [if_pos rfl]
      simp only [Option.some_inj]
      constructor
      · rintro rfl
        exact ⟨by simp [occursAt], fun j hj => absurd hj (by omega)⟩
      · rintro ⟨-, hmin⟩
        by_contra hne
        exact hmin 0 (by omega) (by simp [occursAt])
    · rw [if_neg hn]
      constructor
      · intro hc
        exact absurd hc (by simp)
      · rintro ⟨ho, -⟩
        have hn' : n = [] := by simpa [occursAt] using ho.symm
        exact absurd hn' hn
  | cons c t ih =>
    rw [firstOcc_cons]
    by_cases hp : (c :: t).take n.length = n
    · simp only [hp, if_true, Option.some_inj]
      constructor
      · rintro rfl
        exact ⟨hp, fun j hj => absurd hj (by omega)⟩
      · rintro ⟨-, hmin⟩
        by_contra hne
        exact hmin 0 (by omega) hp
    · simp only [hp, if_false, Option.map_eq_some']
      constructor
      · rintro ⟨j, hj, rfl⟩
        obtain ⟨ho, hmin⟩ := ih.mp hj
        refine ⟨by rwa [occursAt_succ], ?_⟩
        intro k hk
        match k with
        | 0 => exact hp
        | k' + 1 =>
          rw [occursAt_succ]
          exact hmin k' (by omega)
      · rintro ⟨ho, hmin⟩
        match i with
        | 0 => exact absurd ho hp
        | j + 1 =>
          refine ⟨j, ih.mpr ⟨by rwa [occursAt_succ] at ho, ?_⟩, rfl⟩
          intro k hk hko
          exact hmin (k + 1) (by omega) (by rwa [occursAt_succ])

/-- An occurrence in `h` is an occurrence in `h ++ e` (nonempty needle). -/
theorem occursAt_append_left {n h e : Chars} {i : Nat} (hn : n ≠ [])
    (ho : occursAt n h i) : occursAt n (h ++ e) i := by
  have hb := occursAt_bound hn ho
  unfold occursAt at *
  rw [List.drop_append_eq_append_drop,
    List.take_append_of_le_length (by rw [List.length_drop]; omega)]
  exact ho

/-- An occurrence in `h ++ e` that fits inside `h` is an occurrence in `h`. -/
theorem occursAt_append_back {n h e : Chars} {j : Nat}
    (hfits : j + n.length ≤ h.length)
    (ho : occursAt n (h ++ e) j) : occursAt n h j := by
  unfold occursAt at *
  rw [List.drop_append_eq_append_drop,
    List.take_append_of_le_length (by rw [List.length_drop]; omega)] at ho
  exact ho

/-- JS `indexOf` is stable under appending to the right of a string that
already contains the needle. -/
theorem firstOcc_append_of_some {n h e : Chars} {i : Nat} (hn : n ≠ [])
    (hf : firstOcc n h = some i) : firstOcc n (h ++ e) = some i := by
  obtain ⟨ho, hmin⟩ := firstOcc_eq_some_iff.mp hf
  have hb := occursAt_bound hn ho
  refine firstOcc_eq_some_iff.mpr ⟨occursAt_append_left hn ho, ?_⟩
  intro j hj hjo
  exact hmin j hj (occursAt_append_back (by omega) hjo)

/-- If the needle does not occur in `h`, any occurrence in `h ++ e` pokes
past the end of `h`. -/
theorem firstOcc_append_none_lt {n h e : Chars} {p : Nat}
    (hnone : firstOcc n h = none)
    (hf : firstOcc n (h ++ e) = some p) : h.length < p + n.length := by
  obtain ⟨ho, -⟩ := firstOcc_eq_some_iff.mp hf
  by_contra hle
  exact (firstOcc_eq_none_iff.mp hnone p)
    (occursAt_append_back (by omega) ho)

/-- Shifting an occurrence across a dropped prefix. -/
theorem occursAt_drop_iff {n h e : Chars} {d q : Nat} (hd : d ≤ h.length) :
    occursAt n (h.drop d ++ e) q ↔ occursAt n (h ++ e) (q + d) := by
  unfold occursAt
  rw [List.drop_append_eq_append_drop, List.drop_append_eq_append_drop,
    List.drop_drop, List.length_drop]
  have h1 : d + q = q + d := by omega
  have h2 : q - (h.length - d) = q + d - h.length := by omega
  rw [h1, h2]

/-- When the needle does not occur in `h`, searching `h ++ e` is the same
as searching the last `n.length` characters of `h` glued to `e` (shifted).
This is the heart of the "withhold a delimiter-length suffix" trick in
`ToolParser.addChunk`. -/
theorem firstOcc_append_shift {n h e : Chars}
    (hnone : firstOcc n h = none) (hlen : n.length ≤ h.length) :
    firstOcc n (h ++ e) =
      (firstOcc n (h.drop (h.length - n.length) ++ e)).map
        (· + (h.length - n.length)) := by
  set d := h.length - n.length with hdef
  have hd : d ≤ h.length := by omega
  cases hq : firstOcc n (h.drop d ++ e) with
  | none =>
    simp only [Option.map_none']
    refine firstOcc_eq_none_iff.mpr ?_
    intro p hp
    have hlt : h.length < p + n.length := by
      rcases Nat.lt_or_ge (p + n.length) (h.length + 1) with hle | hgt
      · exact absurd (occursAt_append_back (by omega) hp)
          (firstOcc_eq_none_iff.mp hnone p)
      · omega
    have hpd : d ≤ p := by omega
    have : occursAt n (h.drop d ++ e) (p - d) := by
      rw [occursAt_drop_iff hd]
      have : p - d + d = p := by omega
      rwa [this]
    exact (firstOcc_eq_none_iff.mp hq _) this
  | some q =>
    simp only [Option.map_some']
    obtain ⟨ho, hmin⟩ := firstOcc_eq_some_iff.mp hq
    refine firstOcc_eq_some_iff.mpr ⟨(occursAt_drop_iff hd).mp ho, ?_⟩
    intro j hj hjo
    have hlt : h.length < j + n.length := by
      rcases Nat.lt_or_ge (j + n.length) (h.length + 1) with hle | hgt
      · exact absurd (occursAt_append_back (by omega) hjo)
          (firstOcc_eq_none_iff.mp hnone j)
      · omega
    have hjd : d ≤ j := by omega
    have hback : occursAt n (h.drop d ++ e) (j - d) := by
      rw [occursAt_drop_iff hd]
      have : j - d + d = j := by omega
      rwa [this]
    exact hmin (j - d) (by omega) hback

/-! ## The `addChunk` loop: step lemmas -/

theorem closeTagL_length : closeTagL.length = 7 := by decide

theorem openTagL_length : openTagL.length = 6 := by decide

theorem firstOcc_close_bound {h : Chars} {j : Nat}
    (hf : firstOcc closeTagL h = some j) : j + 7 ≤ h.length := by
  have h0 := @occursAt_bound closeTagL h j (by decide)
    (firstOcc_eq_some_iff.mp hf).1
  have h7 : closeTagL.length = 7 := closeTagL_length
  omega

theorem firstOcc_open_bound {h : Chars} {i : Nat}
    (hf : firstOcc openTagL h = some i) : i + 6 ≤ h.length := by
  have h0 := @occursAt_bound openTagL h i (by decide)
    (firstOcc_eq_some_iff.mp hf).1
  have h6 : openTagL.length = 6 := openTagL_length
  omega

/-- The fuel supplied to `scanF` is irrelevant above the loop measure. -/
theorem scanF_eq_of_lt : ∀ (f1 : Nat) (s : PState) (f2 : Nat),
    pMeasure s < f1 → pMeasure s < f2 → scanF f1 s = scanF f2 s := by
  intro f1
  induction f1 using Nat.strong_induction_on with
  | _ f1 ih =>
    intro s f2 h1 h2
    obtain ⟨buf, inb, tbuf⟩ := s
    cases f1 with
    | zero => exact absurd h1 (by omega)
    | succ g1 =>
      cases f2 with
      | zero => exact absurd h2 (by omega)
      | succ g2 =>
        cases buf with
        | nil => rfl
        | cons b bs =>
          cases inb with
          | true =>
            simp only [scanF]
            cases hc : firstOcc closeTagL (tbuf ++ b :: bs) with
            | none => rfl
            | some j =>
              dsimp only
              have hbd : j + 7 ≤ (tbuf ++ b :: bs).length := firstOcc_close_bound hc
              have hlapp : (tbuf ++ b :: bs).length = tbuf.length + (b :: bs).length :=
                List.length_append _ _
              have hlen : ((tbuf ++ b :: bs).drop (j + 7)).length
                  = (tbuf ++ b :: bs).length - (j + 7) := List.length_drop _ _
              simp only [pMeasure] at h1 h2
              rw [ih g1 (by omega) ⟨(tbuf ++ b :: bs).drop (j + 7), false, []⟩ g2
                (by simp only [pMeasure, List.length_nil]; omega)
                (by simp only [pMeasure, List.length_nil]; omega)]
          | false =>
            simp only [scanF]
            cases ho : firstOcc openTagL (b :: bs) with
            | none => rfl
            | some i =>
              dsimp only
              have hbd : i + 6 ≤ (b :: bs).length := firstOcc_open_bound ho
              have hlen : ((b :: bs).drop (i + 6)).length
                  = (b :: bs).length - (i + 6) := List.length_drop _ _
              simp only [pMeasure] at h1 h2
              rw [ih g1 (by omega) ⟨(b :: bs).drop (i + 6), true, []⟩ g2
                (by simp only [pMeasure, List.length_nil]; omega)
                (by simp only [pMeasure, List.length_nil]; omega)]

theorem scan_nil (inb : Bool) (tbuf : Chars) :
    scan ⟨[], inb, tbuf⟩ = ⟨[], [], ⟨[], inb, tbuf⟩⟩ := by
  simp [scan, scanF]

theorem scan_outside_none_small {buf tbuf : Chars}
    (ho : firstOcc openTagL buf = none) (hle : buf.length ≤ 6) :
    scan ⟨buf, false, tbuf⟩ = ⟨[], [], ⟨buf, false, tbuf⟩⟩ := by
  match buf with
  | [] => exact scan_nil false tbuf
  | b :: bs =>
    simp only [scan, scanF, ho]
    rw [if_neg (by omega)]

theorem scan_outside_none_big {buf tbuf : Chars}
    (ho : firstOcc openTagL buf = none) (hgt : 6 < buf.length) :
    scan ⟨buf, false, tbuf⟩ =
      ⟨buf.take (buf.length - 6), [],
        ⟨buf.drop (buf.length - 6), false, tbuf⟩⟩ := by
  match buf with
  | [] => simp at hgt
  | b :: bs =>
    simp only [scan, scanF, ho]
    rw [if_pos hgt]

theorem scan_outside_some {buf tbuf : Chars} {i : Nat}
    (hne : buf ≠ []) (ho : firstOcc openTagL buf = some i) :
    scan ⟨buf, false, tbuf⟩ =
      ⟨buf.take i ++ (scan ⟨buf.drop (i + 6), true, []⟩).text,
        (scan ⟨buf.drop (i + 6), true, []⟩).calls,
        (scan ⟨buf.drop (i + 6), true, []⟩).state⟩ := by
  match buf with
  | [] => exact absurd rfl hne
  | b :: bs =>
    have hbd : i + 6 ≤ (b :: bs).length := firstOcc_open_bound ho
    simp only [scan, scanF, ho]
    rw [scanF_eq_of_lt (pMeasure ⟨b :: bs, false, tbuf⟩)
      ⟨(b :: bs).drop (i + 6), true, []⟩
      (pMeasure ⟨(b :: bs).drop (i + 6), true, []⟩ + 1)
      (by simp only [pMeasure, List.length_drop, List.length_nil]; omega)
      (by omega)]

theorem scan_inside_none {buf tbuf : Chars}
    (hne : buf ≠ []) (hc : firstOcc closeTagL (tbuf ++ buf) = none) :
    scan ⟨buf, true, tbuf⟩ = ⟨[], [], ⟨[], true, tbuf ++ buf⟩⟩ := by
  match buf with
  | [] => exact absurd rfl hne
  | b :: bs =>
    simp only [scan, scanF, hc]

theorem scan_inside_some {buf tbuf : Chars} {j : Nat}
    (hne : buf ≠ []) (hc : firstOcc closeTagL (tbuf ++ buf) = some j) :
    scan ⟨buf, true, tbuf⟩ =
      ⟨(scan ⟨(tbuf ++ buf).drop (j + 7), false, []⟩).text,
        optToolCalls (parseToolContent ((tbuf ++ buf).take j)) ++
          (scan ⟨(tbuf ++ buf).drop (j + 7), false, []⟩).calls,
        (scan ⟨(tbuf ++ buf).drop (j + 7), false, []⟩).state⟩ := by
  match buf with
  | [] => exact absurd rfl hne
  | b :: bs =>
    have hbd : j + 7 ≤ (tbuf ++ b :: bs).length := firstOcc_close_bound hc
    have hlapp : (tbuf ++ b :: bs).length = tbuf.length + (b :: bs).length :=
      List.length_append _ _
    simp only [scan, scanF, hc]
    rw [scanF_eq_of_lt (pMeasure ⟨b :: bs, true, tbuf⟩)
      ⟨(tbuf ++ b :: bs).drop (j + 7), false, []⟩
      (pMeasure ⟨(tbuf ++ b :: bs).drop (j + 7), false, []⟩ + 1)
      (by simp only [pMeasure, List.length_drop, List.length_nil]; omega)
      (by omega)]

/-- A needle absent from `h` is absent from any suffix of `h`. -/
theorem firstOcc_drop_none {n h : Chars} {d : Nat} (hd : d ≤ h.length)
    (hnone : firstOcc n h = none) : firstOcc n (h.drop d) = none := by
  refine firstOcc_eq_none_iff.mpr (fun q hq => ?_)
  have hq' : occursAt n (h.drop d ++ []) q := by simpa using hq
  rw [occursAt_drop_iff hd] at hq'
  exact firstOcc_eq_none_iff.mp hnone (q + d) (by simpa using hq')

/-- `firstOcc_append_shift` specialised to the opening delimiter. -/
theorem firstOcc_open_shift {h e : Chars}
    (hnone : firstOcc openTagL h = none) (hlen : 6 ≤ h.length) :
    firstOcc openTagL (h ++ e) =
      (firstOcc openTagL (h.drop (h.length - 6) ++ e)).map
        (· + (h.length - 6)) := by
  have h6 : openTagL.length = 6 := openTagL_length
  have := @firstOcc_append_shift openTagL h e hnone (by omega)
  rwa [h6] at this

/-- Every state produced by the `addChunk` loop is quiescent: running the
loop on it again emits nothing and leaves it unchanged. -/
theorem scan_state_fix : ∀ (s : PState),
    scan (scan s).state = ⟨[], [], (scan s).state⟩ := by
  suffices h : ∀ (n : Nat) (s : PState), pMeasure s = n →
      scan (scan s).state = ⟨[], [], (scan s).state⟩ by
    intro s
    exact h (pMeasure s) s rfl
  intro n
  induction n using Nat.strong_induction_on with
  | _ n ih =>
  intro s hm
  obtain ⟨buf, inb, tbuf⟩ := s
  match buf with
  | [] =>
    rw [scan_nil, scan_nil]
  | b :: bs =>
    cases inb with
    | true =>
      cases hc : firstOcc closeTagL (tbuf ++ b :: bs) with
      | none =>
        rw [scan_inside_none (by simp) hc]
        exact scan_nil true (tbuf ++ b :: bs)
      | some j =>
        rw [scan_inside_some (by simp) hc]
        refine ih (pMeasure ⟨(tbuf ++ b :: bs).drop (j + 7), false, []⟩) ?_ _ rfl
        have hbd := firstOcc_close_bound hc
        have happ : (tbuf ++ b :: bs).length = tbuf.length + (b :: bs).length :=
          List.length_append _ _
        simp only [pMeasure, List.length_drop, List.length_nil] at hm ⊢
        omega
    | false =>
      cases ho : firstOcc openTagL (b :: bs) with
      | none =>
        by_cases hlen : 6 < (b :: bs).length
        · rw [scan_outside_none_big ho hlen]
          have hnone : firstOcc openTagL ((b :: bs).drop ((b :: bs).length - 6)) = none :=
            firstOcc_drop_none (by omega) ho
          exact scan_outside_none_small hnone (by rw [List.length_drop]; omega)
        · rw [scan_outside_none_small ho (by omega)]
          exact scan_outside_none_small ho (by omega)
      | some i =>
        rw [scan_outside_some (by simp) ho]
        refine ih (pMeasure ⟨(b :: bs).drop (i + 6), true, []⟩) ?_ _ rfl
        have hbd := firstOcc_open_bound ho
        simp only [pMeasure, List.length_drop, List.length_nil] at hm ⊢
        omega

/-! ## List algebra for the withheld 6-character suffix -/

theorem take_extend_split (A E : Chars) (hA : 6 < A.length) :
    (A ++ E).take ((A ++ E).length - 6)
      = A.take (A.length - 6)
        ++ (A.drop (A.length - 6) ++ E).take
            ((A.drop (A.length - 6) ++ E).length - 6) := by
  have hlA : (A ++ E).length = A.length + E.length := List.length_append _ _
  have hld : (A.drop (A.length - 6)).length = 6 := by
    rw [List.length_drop]; omega
  have hlR : (A.drop (A.length - 6) ++ E).length = 6 + E.length := by
    rw [List.length_append, hld]
  rw [hlA, hlR]
  have h1 : 6 + E.length - 6 = E.length := by omega
  rw [h1]
  rw [List.take_append_eq_append_take]
  rw [@List.take_append_eq_append_take _ (A.drop (A.length - 6)) _ _]
  rw [hld]
  have h2 : A.length + E.length - 6 - A.length = E.length - 6 := by omega
  rw [h2]
  rw [← List.append_assoc]
  congr 1
  have h3 : A.length + E.length - 6 = (A.length - 6) + E.length := by omega
  rw [h3, List.take_add]

theorem drop_extend_split (A E : Chars) (hA : 6 < A.length) :
    (A ++ E).drop ((A ++ E).length - 6)
      = (A.drop (A.length - 6) ++ E).drop
          ((A.drop (A.length - 6) ++ E).length - 6) := by
  have hlA : (A ++ E).length = A.length + E.length := List.length_append _ _
  have hld : (A.drop (A.length - 6)).length = 6 := by
    rw [List.length_drop]; omega
  have hlR : (A.drop (A.length - 6) ++ E).length = 6 + E.length := by
    rw [List.length_append, hld]
  rw [hlA, hlR]
  have h1 : 6 + E.length - 6 = E.length := by omega
  rw [h1]
  rw [List.drop_append_eq_append_drop]
  rw [@List.drop_append_eq_append_drop _ (A.drop (A.length - 6)) _ _]
  rw [hld, List.drop_drop]
  have h2 : A.length + E.length - 6 - A.length = E.length - 6 := by omega
  have h3 : A.length - 6 + E.length = A.length + E.length - 6 := by omega
  rw [h2, h3]

theorem take_extend_shift (A E : Chars) (q : Nat) (hA : 6 ≤ A.length) :
    (A ++ E).take (q + (A.length - 6))
      = A.take (A.length - 6) ++ (A.drop (A.length - 6) ++ E).take q := by
  have h3 : q + (A.length - 6) = (A.length - 6) + q := by omega
  rw [h3, List.take_add]
  congr 1
  · exact List.take_append_of_le_length (by omega)
  · rw [List.drop_append_of_le_length (by omega)]

theorem drop_extend_shift (A E : Chars) (q : Nat) (hA : 6 ≤ A.length) :
    (A ++ E).drop (q + (A.length - 6) + 6)
      = (A.drop (A.length - 6) ++ E).drop (q + 6) := by
  rw [← @List.drop_append_of_le_length _ _ E _
    (show A.length - 6 ≤ A.length by omega)]
  rw [List.drop_drop]
  congr 1
  omega

/-! ## The composition law for `addChunk` -/

/-- Extending the buffer by `e` and running the loop once equals running
the loop on the original buffer and then feeding `e` as a fresh chunk to
the resulting state, concatenating the outputs.  This is the composition
law behind delimiter-split invariance of the extractor. -/
theorem scan_extend : ∀ (s : PState) (e : Chars),
    scan ⟨s.buffer ++ e, s.inToolBlock, s.toolBuffer⟩ =
      ⟨(scan s).text ++ (addChunk (scan s).state e).text,
        (scan s).calls ++ (addChunk (scan s).state e).calls,
        (addChunk (scan s).state e).state⟩ := by
  suffices h : ∀ (n : Nat) (buf : Chars) (inb : Bool) (tbuf : Chars),
      buf.length + tbuf.length = n → ∀ (e : Chars),
      scan ⟨buf ++ e, inb, tbuf⟩ =
        ⟨(scan ⟨buf, inb, tbuf⟩).text
            ++ (addChunk (scan ⟨buf, inb, tbuf⟩).state e).text,
          (scan ⟨buf, inb, tbuf⟩).calls
            ++ (addChunk (scan ⟨buf, inb, tbuf⟩).state e).calls,
          (addChunk (scan ⟨buf, inb, tbuf⟩).state e).state⟩ by
    intro s e
    obtain ⟨buf, inb, tbuf⟩ := s
    exact h (buf.length + tbuf.length) buf inb tbuf rfl e
  intro n
  induction n using Nat.strong_induction_on with
  | _ n ih =>
  intro buf inb tbuf hm e
  match buf with
  | [] =>
    rw [scan_nil]
    rfl
  | b :: bs =>
    cases inb with
    | true =>
      cases hc : firstOcc closeTagL (tbuf ++ b :: bs) with
      | none =>
        rw [scan_inside_none (by simp) hc]
        dsimp only [addChunk]
        simp only [List.nil_append]
        cases e with
        | nil =>
          simp only [List.append_nil]
          rw [scan_inside_none (by simp) hc, scan_nil]
        | cons e1 es =>
          have hassoc : tbuf ++ ((b :: bs) ++ e1 :: es)
              = (tbuf ++ b :: bs) ++ e1 :: es :=
            (List.append_assoc tbuf (b :: bs) (e1 :: es)).symm
          cases hc2 : firstOcc closeTagL ((tbuf ++ b :: bs) ++ e1 :: es) with
          | none =>
            rw [scan_inside_none (by simp)
              (show firstOcc closeTagL (tbuf ++ ((b :: bs) ++ e1 :: es)) = none by
                rw [hassoc]; exact hc2)]
            rw [scan_inside_none (by simp) hc2]
            rw [hassoc]
          | some j =>
            rw [scan_inside_some (by simp)
              (show firstOcc closeTagL (tbuf ++ ((b :: bs) ++ e1 :: es)) = some j by
                rw [hassoc]; exact hc2)]
            rw [scan_inside_some (by simp) hc2]
            rw [hassoc]
      | some j =>
        have hbd : j + 7 ≤ (tbuf ++ b :: bs).length := firstOcc_close_bound hc
        have hassoc : tbuf ++ ((b :: bs) ++ e) = (tbuf ++ b :: bs) ++ e :=
          (List.append_assoc tbuf (b :: bs) e).symm
        have hc' : firstOcc closeTagL (tbuf ++ ((b :: bs) ++ e)) = some j := by
          rw [hassoc]; exact firstOcc_append_of_some (by decide) hc
        have htake : ((tbuf ++ b :: bs) ++ e).take j = (tbuf ++ b :: bs).take j :=
          List.take_append_of_le_length (by omega)
        have hdrop : ((tbuf ++ b :: bs) ++ e).drop (j + 7)
            = (tbuf ++ b :: bs).drop (j + 7) ++ e :=
          List.drop_append_of_le_length (by omega)
        have hih := ih (((tbuf ++ b :: bs).drop (j + 7)).length + ([] : Chars).length)
          (by
            have happ : (tbuf ++ b :: bs).length = tbuf.length + (b :: bs).length :=
              List.length_append _ _
            have hdl : ((tbuf ++ b :: bs).drop (j + 7)).length
                = (tbuf ++ b :: bs).length - (j + 7) := List.length_drop _ _
            simp only [List.length_nil]
            omega)
          ((tbuf ++ b :: bs).drop (j + 7)) false [] rfl e
        rw [scan_inside_some (by simp) hc', scan_inside_some (by simp) hc]
        rw [hassoc, htake, hdrop, hih]
        simp only [addChunk, List.append_assoc]
    | false =>
      cases ho : firstOcc openTagL (b :: bs) with
      | none =>
        by_cases hlen : 6 < (b :: bs).length
        · rw [scan_outside_none_big ho hlen]
          dsimp only [addChunk]
          have hlast : ((b :: bs).drop ((b :: bs).length - 6)).length = 6 := by
            rw [List.length_drop]; omega
          have hnone6 : firstOcc openTagL ((b :: bs).drop ((b :: bs).length - 6)) = none :=
            firstOcc_drop_none (by omega) ho
          have hshift := @firstOcc_open_shift (b :: bs) e ho (by omega)
          cases hq : firstOcc openTagL ((b :: bs).drop ((b :: bs).length - 6) ++ e) with
          | none =>
            have hA : firstOcc openTagL ((b :: bs) ++ e) = none := by
              rw [hshift, hq]; rfl
            cases e with
            | nil =>
              simp only [List.append_nil]
              rw [scan_outside_none_big ho hlen,
                  scan_outside_none_small hnone6 (by omega)]
              simp [List.append_nil]
            | cons e1 es =>
              have hlenA : 6 < ((b :: bs) ++ e1 :: es).length := by
                rw [List.length_append]; omega
              have hlenR : 6 <
                  ((b :: bs).drop ((b :: bs).length - 6) ++ e1 :: es).length := by
                rw [List.length_append, hlast]; simp
              rw [scan_outside_none_big hA hlenA,
                  scan_outside_none_big hq hlenR]
              rw [take_extend_split (b :: bs) (e1 :: es) hlen,
                  drop_extend_split (b :: bs) (e1 :: es) hlen]
              simp only [List.nil_append]
          | some q =>
            have hA : firstOcc openTagL ((b :: bs) ++ e)
                = some (q + ((b :: bs).length - 6)) := by
              rw [hshift, hq]; rfl
            have hne2 : (b :: bs).drop ((b :: bs).length - 6) ++ e ≠ [] := by
              intro hcon
              have hl := congrArg List.length hcon
              rw [List.length_append, hlast] at hl
              simp at hl
            rw [scan_outside_some (by simp) hA, scan_outside_some hne2 hq]
            rw [take_extend_shift (b :: bs) e q (by omega),
                drop_extend_shift (b :: bs) e q (by omega)]
            dsimp only
            rw [List.append_assoc]
            rfl
        · rw [scan_outside_none_small ho (by omega)]
          rfl
      | some i =>
        have hbd : i + 6 ≤ (b :: bs).length := firstOcc_open_bound ho
        have ho' : firstOcc openTagL ((b :: bs) ++ e) = some i :=
          firstOcc_append_of_some (by decide) ho
        have htake : ((b :: bs) ++ e).take i = (b :: bs).take i :=
          List.take_append_of_le_length (by omega)
        have hdrop : ((b :: bs) ++ e).drop (i + 6) = (b :: bs).drop (i + 6) ++ e :=
          List.drop_append_of_le_length (by omega)
        have hih := ih (((b :: bs).drop (i + 6)).length + ([] : Chars).length)
          (by
            have hdl : ((b :: bs).drop (i + 6)).length
                = (b :: bs).length - (i + 6) := List.length_drop _ _
            simp only [List.length_nil]
            omega)
          ((b :: bs).drop (i + 6)) true [] rfl e
        rw [scan_outside_some (by simp) ho', scan_outside_some (by simp) ho]
        rw [htake, hdrop, hih]
        simp only [addChunk, List.append_assoc]

/-- Splitting one chunk into two consecutive `addChunk` calls yields the
same outputs and the same final state. -/
theorem addChunk_split (s : PState) (a b : Chars) :
    addChunk s (a ++ b) =
      ⟨(addChunk s a).text ++ (addChunk (addChunk s a).state b).text,
        (addChunk s a).calls ++ (addChunk (addChunk s a).state b).calls,
        (addChunk (addChunk s a).state b).state⟩ := by
  have h := scan_extend ⟨s.buffer ++ a, s.inToolBlock, s.toolBuffer⟩ b
  show scan ⟨s.buffer ++ (a ++ b), s.inToolBlock, s.toolBuffer⟩ = _
  rw [← List.append_assoc]
  exact h

/-- Feeding fragments one at a time into a quiescent state equals feeding
their concatenation as a single chunk. -/
theorem foldFrags_eq_addChunk : ∀ (frags : List Chars) (s : PState),
    scan s = ⟨[], [], s⟩ →
    foldFrags s frags = addChunk s (joinAll frags) := by
  intro frags
  induction frags with
  | nil =>
    intro s hq
    show (⟨[], [], s⟩ : ScanOut) = scan ⟨s.buffer ++ [], s.inToolBlock, s.toolBuffer⟩
    rw [List.append_nil]
    exact hq.symm
  | cons c rest ihr =>
    intro s hq
    have hq2 : scan (addChunk s c).state = ⟨[], [], (addChunk s c).state⟩ :=
      scan_state_fix ⟨s.buffer ++ c, s.inToolBlock, s.toolBuffer⟩
    show (⟨(addChunk s c).text ++ (foldFrags (addChunk s c).state rest).text,
          (addChunk s c).calls ++ (foldFrags (addChunk s c).state rest).calls,
          (foldFrags (addChunk s c).state rest).state⟩ : ScanOut)
        = addChunk s (c ++ joinAll rest)
    rw [ihr (addChunk s c).state hq2, addChunk_split s c (joinAll rest)]

/-- C1: for every response string and every way of splitting it into
contiguous fragments, feeding the fragments one at a time through the
extractor's `addChunk` and then `flush` yields the same concatenated plain
text and the same sequence of parsed tool calls as feeding the whole
string as a single fragment. -/
theorem claim_C1_fragmentation_invariance (frags : List Chars) :
    feedAll frags = feedAll [joinAll frags] := by
  show ((foldFrags pInit frags).text ++ flushText (foldFrags pInit frags).state,
        (foldFrags pInit frags).calls)
      = ((foldFrags pInit [joinAll frags]).text
            ++ flushText (foldFrags pInit [joinAll frags]).state,
        (foldFrags pInit [joinAll frags]).calls)
  rw [foldFrags_eq_addChunk frags pInit (scan_nil false []),
      foldFrags_eq_addChunk [joinAll frags] pInit (scan_nil false [])]
  rw [show joinAll [joinAll frags] = joinAll frags ++ [] from rfl,
      List.append_nil]

/-! ## C6: the withheld suffix -/

/-- C6 counterexample: on the 7-character chunk `abcdefg`, which contains
no delimiter, `addChunk` emits only `a` and withholds the trailing 6
characters — not the `N − 1 = 5` bytes the claim states (which would emit
`ab`). -/
theorem claim_C6_counterexample :
    addChunk pInit "abcdefg".data
        = ⟨"a".data, [], ⟨"bcdefg".data, false, []⟩⟩
      ∧ ("bcdefg".data).length ≠ 5 := by
  constructor
  · rfl
  · decide

/-- C6 (amended): for every `addChunk` call in which no opening delimiter
is found in the outer buffer while outside a tool block, exactly the
trailing `min(length, 6)` bytes of the buffer are withheld — 6 being the
full opening-delimiter length, not `N − 1 = 5` — and everything before
them is emitted as plain text, with no tool calls. -/
theorem claim_C6_amended (s : PState) (c : Chars)
    (hout : s.inToolBlock = false)
    (hno : firstOcc openTagL (s.buffer ++ c) = none) :
    addChunk s c =
      ⟨(s.buffer ++ c).take ((s.buffer ++ c).length - 6), [],
        ⟨(s.buffer ++ c).drop ((s.buffer ++ c).length - 6), false,
          s.toolBuffer⟩⟩ := by
  obtain ⟨buf, inb, tbuf⟩ := s
  dsimp only at hout hno ⊢
  subst hout
  by_cases hlen : 6 < (buf ++ c).length
  · exact scan_outside_none_big hno hlen
  · rw [show addChunk ⟨buf, false, tbuf⟩ c = scan ⟨buf ++ c, false, tbuf⟩ from rfl,
        scan_outside_none_small hno (by omega)]
    have h0 : (buf ++ c).length - 6 = 0 := by omega
    rw [h0, List.take_zero, List.drop_zero]

/-- C6 witness: the amended theorem at a fresh parser and chunk
`abcdefg`. -/
theorem claim_C6_witness :
    addChunk pInit "abcdefg".data
      = ⟨("abcdefg".data).take (("abcdefg".data).length - 6), [],
          ⟨("abcdefg".data).drop (("abcdefg".data).length - 6), false, []⟩⟩ :=
  claim_C6_amended pInit "abcdefg".data rfl (by decide)

/-! ## C10: tool blocks without a `name:` line -/

theorem nameLitL_length : nameLitL.length = 5 := by decide

/-- A content with no occurrence of `name:` makes the leftmost-match
search fail. -/
theorem findNameCapture_eq_none {c : Chars}
    (h : firstOcc nameLitL c = none) : findNameCapture c = none := by
  induction c with
  | nil => rfl
  | cons x t ih =>
    have h0 : ¬ occursAt nameLitL (x :: t) 0 := firstOcc_eq_none_iff.mp h 0
    unfold findNameCapture
    rw [if_neg ?hcond]
    · apply ih
      refine firstOcc_eq_none_iff.mpr (fun i hi => ?_)
      exact firstOcc_eq_none_iff.mp h (i + 1) (occursAt_succ.mpr hi)
    case hcond =>
      intro hcontra
      apply h0
      unfold occursAt
      rw [List.drop_zero, nameLitL_length]
      exact hcontra

/-- Block content with no `name:` parses to no tool call. -/
theorem parseToolContent_eq_none {c : Chars}
    (h : firstOcc nameLitL c = none) : parseToolContent c = none := by
  unfold parseToolContent
  rw [findNameCapture_eq_none h]

/-- The first occurrence of `</tool>` in `c ++ </tool> ++ v` is exactly at
`c.length` when `c` itself contains none: no occurrence can straddle the
boundary, because `</tool>` has no nontrivial border. -/
theorem firstOcc_close_at_append (c v : Chars)
    (hclose : firstOcc closeTagL c = none) :
    firstOcc closeTagL (c ++ (closeTagL ++ v)) = some c.length := by
  refine firstOcc_eq_some_iff.mpr ⟨?_, ?_⟩
  · unfold occursAt
    rw [List.drop_left]
    exact List.take_left _ _
  · intro j hj hjo
    by_cases hfit : j + 7 ≤ c.length
    · refine firstOcc_eq_none_iff.mp hclose j ?_
      exact occursAt_append_back (by rw [closeTagL_length]; omega) hjo
    · -- the straddling occurrence would force a nontrivial border of `</tool>`
      have hk1 : 1 ≤ c.length - j := by omega
      have hk2 : c.length - j ≤ 6 := by omega
      have hdl : (c.drop j).length = c.length - j := List.length_drop _ _
      unfold occursAt at hjo
      rw [List.drop_append_of_le_length (by omega)] at hjo
      rw [List.take_append_eq_append_take] at hjo
      rw [List.take_of_length_le (by rw [closeTagL_length, hdl]; omega)] at hjo
      rw [hdl] at hjo
      rw [List.take_append_of_le_length (by rw [closeTagL_length]; omega)] at hjo
      -- hjo : c.drop j ++ closeTagL.take (closeTagL.length - (c.length - j)) = closeTagL
      have hdropk : closeTagL.drop (c.length - j)
          = closeTagL.take (closeTagL.length - (c.length - j)) := by
        have hcg := congrArg (List.drop (c.length - j)) hjo
        rw [List.drop_left' hdl] at hcg
        exact hcg.symm
      have hball : ∀ k < 7, 1 ≤ k → closeTagL.drop k ≠ closeTagL.take (closeTagL.length - k) := by
        decide
      exact hball (c.length - j) (by omega) hk1 hdropk

/-- C10: a completed tool block whose content contains no `name:` line
produces no `ToolCall` — the block is silently dropped — and plain text
and tool blocks after it are extracted exactly as if the block were
absent from the stream. -/
theorem claim_C10_no_name_dropped (c tail : Chars)
    (hname : firstOcc nameLitL c = none)
    (hclose : firstOcc closeTagL c = none) :
    addChunk pInit (openTagL ++ (c ++ (closeTagL ++ tail)))
      = addChunk pInit tail := by
  show scan ⟨[] ++ (openTagL ++ (c ++ (closeTagL ++ tail))), false, []⟩
      = addChunk pInit tail
  rw [List.nil_append]
  have hopen : firstOcc openTagL (openTagL ++ (c ++ (closeTagL ++ tail)))
      = some 0 := by
    refine firstOcc_eq_some_iff.mpr ⟨?_, by omega⟩
    unfold occursAt
    rw [List.drop_zero, List.take_append_of_le_length (by omega),
      List.take_length]
  have hne0 : openTagL ++ (c ++ (closeTagL ++ tail)) ≠ [] := by
    intro hx
    have hlx := congrArg List.length hx
    rw [List.length_append, openTagL_length, List.length_nil] at hlx
    omega
  rw [scan_outside_some hne0 hopen]
  rw [show (openTagL ++ (c ++ (closeTagL ++ tail))).drop (0 + 6)
      = c ++ (closeTagL ++ tail) from List.drop_left' (by decide)]
  have hcl : firstOcc closeTagL ([] ++ (c ++ (closeTagL ++ tail)))
      = some c.length := by
    rw [List.nil_append]
    exact firstOcc_close_at_append c tail hclose
  by_cases hcnil : c ++ (closeTagL ++ tail) = []
  · exact absurd (congrArg List.length hcnil)
      (by rw [List.length_append, List.length_append, closeTagL_length,
        List.length_nil]; omega)
  · rw [scan_inside_some hcnil hcl]
    rw [show ([] : Chars) ++ (c ++ (closeTagL ++ tail)) = c ++ (closeTagL ++ tail)
        from List.nil_append _]
    rw [show (c ++ (closeTagL ++ tail)).take c.length = c from List.take_left _ _]
    rw [parseToolContent_eq_none hname]
    rw [show (c ++ (closeTagL ++ tail)).drop (c.length + 7)
        = tail by
      rw [List.drop_append]
      exact List.drop_left' closeTagL_length]
    rfl

/-- C10 witness: a block `<tool>hello</tool>` (no `name:`) followed by
trailing text is extracted exactly like the trailing text alone. -/
theorem claim_C10_witness :
    addChunk pInit (openTagL ++ ("hello".data ++ (closeTagL ++ "the tail text".data)))
      = addChunk pInit "the tail text".data :=
  claim_C10_no_name_dropped "hello".data "the tail text".data
    (by decide) (by decide)

/-! ## C3/C4/C5: the memory store -/

theorem estimateTokens_aux : ∀ (l : List Message) (a : Nat),
    l.foldl (fun acc m => acc + contentTokens m.content) a
      = a + estimateTokens l := by
  intro l
  induction l with
  | nil =>
    intro a
    simp [estimateTokens]
  | cons m t ih =>
    intro a
    simp only [estimateTokens, List.foldl_cons]
    rw [ih (a + contentTokens m.content), ih (0 + contentTokens m.content)]
    omega

theorem estimateTokens_replicate (k : Nat) (m : Message) :
    estimateTokens (List.replicate k m) = k * contentTokens m.content := by
  induction k with
  | zero => simp [estimateTokens]
  | succ k ih =>
    simp only [List.replicate_succ, estimateTokens, List.foldl_cons]
    rw [estimateTokens_aux (List.replicate k m) (0 + contentTokens m.content)]
    rw [ih]
    ring

/-- C4 counterexample: a cache of exactly 15 long messages (1400
characters each, an estimated 8400 tokens) triggers compaction, although
the claimed condition — count exceeding 20, or count exceeding 15 with
tokens over budget — is false at count 15: `shouldCompact` requires the
count to *reach* 15, not exceed it. -/
theorem claim_C4_counterexample :
    shouldCompact longCache = true
      ∧ ¬ (longCache.length > 20
          ∨ (longCache.length > 15 ∧ estimateTokens longCache > 8000)) := by
  have hlen : longCache.length = 15 := by
    simp [longCache, List.length_replicate]
  have hct : contentTokens longMsg.content = 560 := by
    show ceilTokens (List.replicate 1400 'a').length = 560
    rw [List.length_replicate]
    decide
  have htok : estimateTokens longCache = 8400 := by
    unfold longCache
    rw [estimateTokens_replicate, hct]
  constructor
  · unfold shouldCompact
    rw [hlen, htok]
    decide
  · rw [hlen, htok]
    decide

/-- C4 (amended): after every append, compaction is triggered if and only
if the new cached message count is at least 15 and either the count
exceeds 20 or the estimated token count exceeds 8000.  In particular a
count in 16..20 with tokens at or under 8000 triggers nothing, but a
count of exactly 15 with tokens over 8000 does trigger compaction. -/
theorem claim_C4_amended (cache : List Message) (role : Role)
    (content : MsgContent) (now : Nat) :
    (saveMessage cache role content now).2 = true
      ↔ (15 ≤ (cache ++ [(⟨role, content, now⟩ : Message)]).length
          ∧ (20 < (cache ++ [(⟨role, content, now⟩ : Message)]).length
            ∨ 8000 < estimateTokens (cache ++ [(⟨role, content, now⟩ : Message)]))) := by
  show shouldCompact (cache ++ [(⟨role, content, now⟩ : Message)]) = true ↔ _
  unfold shouldCompact
  by_cases h : (cache ++ [(⟨role, content, now⟩ : Message)]).length < 15
  · rw [if_pos h]
    constructor
    · intro hc
      exact absurd hc (by simp)
    · intro hc
      exact absurd hc.1 (by omega)
  · rw [if_neg h]
    simp only [Bool.or_eq_true, decide_eq_true_eq]
    omega

/-- C3 counterexample: with 15 short cached messages and a summarization
call that fails, `compactMemory` still replaces the cache (15 messages
become 11) and records a `CompactedMemory` whose summary is the literal
fallback `"Summary generation failed"` — the cache is not left unchanged
for a retry. -/
theorem claim_C3_counterexample :
    (compactMemory cache15 [] (.error ()) 7).1.length = 11
      ∧ cache15.length = 15
      ∧ ¬ ((compactMemory cache15 [] (.error ()) 7).1.length = cache15.length)
      ∧ (compactMemory cache15 [] (.error ()) 7).2
        = [⟨"Summary generation failed".data, 0, 5, 5⟩] := by
  exact ⟨rfl, rfl, by decide, rfl⟩

/-- C3 (amended): a failure of the summarization call does not leave the
cache unchanged: `generateSummary` swallows the error and returns the
literal `"Summary generation failed"`, so compaction proceeds, replacing
the cache with a summary message carrying that literal followed by the 10
most recent messages, and appending a `CompactedMemory` record derived
from the failed call.  (The cache is left unchanged only when
`compactMemory` returns early, e.g. under 15 cached messages.) -/
theorem claim_C3_amended (cache : List Message)
    (compacted : List CompactedMemory) (now : Nat)
    (hlen : 15 ≤ cache.length) :
    compactMemory cache compacted (.error ()) now
      = (mkSummaryMessage "Summary generation failed".data now
            :: cache.drop (cache.length - 10),
        compacted ++ [⟨"Summary generation failed".data, 0,
          (cache.take (cache.length - 10)).length,
          (cache.take (cache.length - 10)).length⟩]) := by
  unfold compactMemory
  rw [if_neg (by omega),
    if_neg (show ¬ (cache.take (cache.length - 10)).length = 0 by
      rw [List.length_take]; omega)]
  rfl

/-- C3 witness: the amended theorem at a 15-message cache. -/
theorem claim_C3_witness :
    15 ≤ cache15.length
      ∧ compactMemory cache15 [] (.error ()) 9
        = (mkSummaryMessage "Summary generation failed".data 9
              :: cache15.drop (cache15.length - 10),
          [⟨"Summary generation failed".data, 0,
            (cache15.take (cache15.length - 10)).length,
            (cache15.take (cache15.length - 10)).length⟩]) :=
  ⟨by decide, claim_C3_amended cache15 [] 9 (by decide)⟩

set_option maxRecDepth 8000 in
/-- C5 counterexample: in a session receiving 16 short text messages one
per call, the 16th append does *not* trigger compaction (count 16 is at
most 20 and the token estimate is far under budget): afterwards the cache
still holds all 16 messages and no `CompactedMemory` record exists. -/
theorem claim_C5_counterexample :
    (saveMessage (shortRun 15).1 .user (.str "hi".data) 15).2 = false
      ∧ (shortRun 16).1.length = 16
      ∧ (shortRun 16).2 = [] := by
  exact ⟨rfl, rfl, rfl⟩

set_option maxRecDepth 8000 in
/-- C5 (amended): with short text messages, no append through the 20th
triggers compaction; the 21st append is the first trigger (count 21
exceeds the hard ceiling 20), after which the cache is a single summary
message followed by messages 12..21 (10 kept) and exactly one
`CompactedMemory` record exists with `messageCount = 11`. -/
theorem claim_C5_amended :
    (shortRun 20).2 = []
      ∧ (saveMessage (shortRun 20).1 .user (.str "hi".data) 20).2 = true
      ∧ shortRun 21
        = (mkSummaryMessage "S".data 20
              :: (List.range 10).map (fun i => ⟨.user, .str "hi".data, i + 11⟩),
          [⟨"S".data, 0, 11, 11⟩]) := by
  exact ⟨rfl, rfl, rfl⟩

/-! ## C2: terminal events -/

set_option maxRecDepth 8000 in
/-- C2 (code-bug evaluation): a run with `maxTurns = 1` whose single turn
completes with no tool calls emits `done` *and then* the turn-limit error
`Max turns reached` — two terminal events where the spec requires exactly
one. -/
theorem claim_C2_double_terminal :
    executeModel 1 (fun _ => ["Hello!".data]) none exec0
      = [.text "Hello!".data, .done, .errorEv "Max turns reached".data] := by
  rfl

/-! ## C7: tool-call deduplication -/

theorem dedupGo_countP (k : Chars) :
    ∀ (l : List ToolCall) (seen : List Chars),
      (dedupGo seen l).countP (fun c => dedupKey c == k)
        = if seen.contains k then 0
          else if l.any (fun c => dedupKey c == k) then 1 else 0 := by
  intro l
  induction l with
  | nil =>
    intro seen
    by_cases hk : seen.contains k = true <;> simp [dedupGo, hk]
  | cons tc rest ih =>
    intro seen
    simp only [dedupGo]
    by_cases hs : seen.contains (dedupKey tc) = true
    · rw [if_pos hs, ih seen]
      by_cases hk : seen.contains k = true
      · rw [if_pos hk, if_pos hk]
      · have hbe : (dedupKey tc == k) = false := by
          cases hbeq : dedupKey tc == k with
          | false => rfl
          | true =>
            exfalso
            rw [eq_of_beq hbeq] at hs
            exact hk hs
        rw [if_neg hk, if_neg hk]
        simp only [List.any_cons]
        simp only [hbe, Bool.false_or]
    · rw [if_neg hs]
      rw [List.countP_cons, ih (dedupKey tc :: seen)]
      by_cases hbk : dedupKey tc = k
      · subst hbk
        have hcontog : (dedupKey tc :: seen).contains (dedupKey tc) = true := by
          simp [List.contains_cons]
        have hneg : ¬ seen.contains (dedupKey tc) = true := hs
        rw [if_pos hcontog, if_neg hneg]
        simp [List.any_cons, beq_self_eq_true]
      · have hbe : (dedupKey tc == k) = false := by
          cases hbeq : dedupKey tc == k with
          | false => rfl
          | true => exact absurd (eq_of_beq hbeq) hbk
        have hcont : (dedupKey tc :: seen).contains k = seen.contains k := by
          simp only [List.contains_cons]
          have hkb : (k == dedupKey tc) = false := by
            cases hbeq : k == dedupKey tc with
            | false => rfl
            | true => exact absurd (eq_of_beq hbeq).symm hbk
          rw [hkb, Bool.false_or]
        rw [hcont]
        by_cases hk : seen.contains k = true
        · rw [if_pos hk, if_pos hk]
          simp [hbe]
        · rw [if_neg hk, if_neg hk]
          simp only [List.any_cons]
          simp only [hbe, Bool.false_or]
          simp

/-- C7 (amended): deduplication keys the calls on their order-preserving
JSON serialization `JSON.stringify({name, parameters})`: within one turn,
for every parsed tool call, exactly one call with its serialized key is
executed and exactly one `tool_result` event with that key is emitted —
so textually identical tool blocks execute once.  (Parameters that are
structurally equal but serialize with keys in a different order are *not*
identified; see the counterexample.) -/
theorem claim_C7_amended (exec : ToolCall → Json) (calls : List ToolCall)
    (tc : ToolCall) (hmem : tc ∈ calls) :
    (deduplicateToolCalls calls).countP (fun c => dedupKey c == dedupKey tc) = 1
      ∧ (runTools exec calls).countP (isResultForKey (dedupKey tc)) = 1 := by
  have hany : calls.any (fun c => dedupKey c == dedupKey tc) = true := by
    apply List.any_eq_true.mpr
    exact ⟨tc, hmem, by simp⟩
  have h1 : (deduplicateToolCalls calls).countP
      (fun c => dedupKey c == dedupKey tc) = 1 := by
    unfold deduplicateToolCalls
    rw [dedupGo_countP (dedupKey tc) calls []]
    simp [hany]
  refine ⟨h1, ?_⟩
  unfold runTools
  rw [List.countP_map]
  have hco : (isResultForKey (dedupKey tc) ∘ fun c => AgentEvent.toolResult c (exec c))
      = fun c => dedupKey c == dedupKey tc := by
    funext c
    rfl
  rw [hco]
  exact h1

/-- C7 witness: the amended theorem at a single parsed call. -/
theorem claim_C7_witness :
    (deduplicateToolCalls [⟨"t".data, Json.obj .nil⟩]).countP
        (fun c => dedupKey c == dedupKey ⟨"t".data, Json.obj .nil⟩) = 1
      ∧ (runTools exec0 [⟨"t".data, Json.obj .nil⟩]).countP
        (isResultForKey (dedupKey ⟨"t".data, Json.obj .nil⟩)) = 1 :=
  claim_C7_amended exec0 [⟨"t".data, Json.obj .nil⟩] ⟨"t".data, Json.obj .nil⟩
    (List.mem_singleton.mpr rfl)

set_option maxRecDepth 8000 in
/-- C7 counterexample: two tool blocks in the same turn whose parameters
are structurally equal — `{"a": 1, "b": 2}` versus `{"b": 2, "a": 1}` —
parse to calls that are identical under the spec's canonical (key-order
insensitive) structural equality, yet deduplication keeps both, so two
executions occur and two `tool_result` events are emitted. -/
theorem claim_C7_counterexample :
    (streamTurn ["<tool>name: t\nparameters: \x7b\"a\": 1, \"b\": 2\x7d</tool><tool>name: t\nparameters: \x7b\"b\": 2, \"a\": 1\x7d</tool>".data]
        none).toolCalls
      = [⟨"t".data, .obj (.cons "a".data (.num 1) (.cons "b".data (.num 2) .nil))⟩,
         ⟨"t".data, .obj (.cons "b".data (.num 2) (.cons "a".data (.num 1) .nil))⟩]
    ∧ specCanonicalEq
        ⟨"t".data, .obj (.cons "a".data (.num 1) (.cons "b".data (.num 2) .nil))⟩
        ⟨"t".data, .obj (.cons "b".data (.num 2) (.cons "a".data (.num 1) .nil))⟩
      = true
    ∧ deduplicateToolCalls
        [⟨"t".data, .obj (.cons "a".data (.num 1) (.cons "b".data (.num 2) .nil))⟩,
         ⟨"t".data, .obj (.cons "b".data (.num 2) (.cons "a".data (.num 1) .nil))⟩]
      = [⟨"t".data, .obj (.cons "a".data (.num 1) (.cons "b".data (.num 2) .nil))⟩,
         ⟨"t".data, .obj (.cons "b".data (.num 2) (.cons "a".data (.num 1) .nil))⟩]
    ∧ (runTools exec0
        [⟨"t".data, .obj (.cons "a".data (.num 1) (.cons "b".data (.num 2) .nil))⟩,
         ⟨"t".data, .obj (.cons "b".data (.num 2) (.cons "a".data (.num 1) .nil))⟩]).length
      = 2 := by
  exact ⟨rfl, rfl, rfl, rfl⟩

/-! ## C8: text suppression after tool detection -/

theorem all_not_text_map_toolCall (calls : List ToolCall) :
    (calls.map AgentEvent.toolCall).all (fun ev => !isTextEv ev) = true := by
  induction calls with
  | nil => rfl
  | cons c t ih => simp [isTextEv, ih]

theorem noTextAfterToolEv_of_all (l : List AgentEvent)
    (h : l.all (fun ev => !isTextEv ev) = true) :
    noTextAfterToolEv l = true := by
  induction l with
  | nil => rfl
  | cons e rest ih =>
    rw [List.all_cons] at h
    obtain ⟨he, hrest⟩ := Bool.and_eq_true_iff.mp h
    cases e with
    | text s => exact absurd he (by simp [isTextEv])
    | toolCall tc =>
      simp only [noTextAfterToolEv]
      exact hrest
    | toolResult tc r =>
      simp only [noTextAfterToolEv]
      exact ih hrest
    | errorEv m =>
      simp only [noTextAfterToolEv]
      exact ih hrest
    | done =>
      simp only [noTextAfterToolEv]
      exact ih hrest

theorem noTextAfterToolEv_no_toolCall_append (l l2 : List AgentEvent)
    (h : l.all (fun ev => !isToolCallEv ev) = true) :
    noTextAfterToolEv (l ++ l2) = noTextAfterToolEv l2 := by
  induction l with
  | nil => rfl
  | cons e rest ih =>
    rw [List.all_cons] at h
    obtain ⟨he, hrest⟩ := Bool.and_eq_true_iff.mp h
    cases e with
    | toolCall tc => exact absurd he (by simp [isToolCallEv])
    | text s =>
      simp only [List.cons_append, noTextAfterToolEv]
      exact ih hrest
    | toolResult tc r =>
      simp only [List.cons_append, noTextAfterToolEv]
      exact ih hrest
    | errorEv m =>
      simp only [List.cons_append, noTextAfterToolEv]
      exact ih hrest
    | done =>
      simp only [List.cons_append, noTextAfterToolEv]
      exact ih hrest

/-- Once the suppression flag is set, the stream loop emits no text event
at all and the flag stays set. -/
theorem streamGo_true_inv (abortAt : Option Nat) :
    ∀ (frags : List Chars) (i : Nat) (ps : PState)
      (evs : List AgentEvent) (chunks : List Chars) (calls : List ToolCall)
      (ps2 : PState) (hb : Bool),
      streamGo abortAt i ps true frags = (evs, chunks, calls, ps2, hb) →
      evs.all (fun ev => !isTextEv ev) = true ∧ hb = true := by
  intro frags
  induction frags with
  | nil =>
    intro i ps evs chunks calls ps2 hb heq
    simp only [streamGo, Prod.mk.injEq] at heq
    obtain ⟨h1, -, -, -, h5⟩ := heq
    exact ⟨by rw [← h1]; rfl, h5.symm⟩
  | cons c rest ih =>
    intro i ps evs chunks calls ps2 hb heq
    simp only [streamGo] at heq
    by_cases ha : chunkAborted abortAt i = true
    · rw [if_pos ha] at heq
      simp only [Prod.mk.injEq] at heq
      obtain ⟨h1, -, -, -, h5⟩ := heq
      exact ⟨by rw [← h1]; rfl, h5.symm⟩
    · rw [if_neg ha] at heq
      by_cases hce : c.isEmpty = true
      · rw [if_pos hce] at heq
        exact ih (i + 1) ps evs chunks calls ps2 hb heq
      · rw [if_neg hce] at heq
        simp only [Bool.not_true, Bool.and_false, Bool.true_or] at heq
        rcases hrec : streamGo abortAt (i + 1) (addChunk ps c).state true rest
          with ⟨evs2, ch2, ca2, pss, h2⟩
        rw [hrec] at heq
        rw [if_neg (show ¬ ((false : Bool) = true) by simp)] at heq
        simp only [Prod.mk.injEq] at heq
        obtain ⟨h1, -, -, -, h5⟩ := heq
        obtain ⟨hall2, hh2⟩ := ih (i + 1) (addChunk ps c).state evs2 ch2 ca2 pss h2 hrec
        constructor
        · rw [← h1]
          simp only [List.nil_append, List.all_append]
          rw [all_not_text_map_toolCall, hall2]
          rfl
        · rw [← h5, hh2]

/-- If the loop finishes with the suppression flag still clear, no
`tool_call` event was emitted. -/
theorem streamGo_false_inv (abortAt : Option Nat) :
    ∀ (frags : List Chars) (i : Nat) (ps : PState) (h0 : Bool)
      (evs : List AgentEvent) (chunks : List Chars) (calls : List ToolCall)
      (ps2 : PState) (hb : Bool),
      streamGo abortAt i ps h0 frags = (evs, chunks, calls, ps2, hb) →
      hb = false →
      evs.all (fun ev => !isToolCallEv ev) = true := by
  intro frags
  induction frags with
  | nil =>
    intro i ps h0 evs chunks calls ps2 hb heq _
    simp only [streamGo, Prod.mk.injEq] at heq
    obtain ⟨h1, -⟩ := heq
    rw [← h1]
    rfl
  | cons c rest ih =>
    intro i ps h0 evs chunks calls ps2 hb heq hfalse
    simp only [streamGo] at heq
    by_cases ha : chunkAborted abortAt i = true
    · rw [if_pos ha] at heq
      simp only [Prod.mk.injEq] at heq
      obtain ⟨h1, -⟩ := heq
      rw [← h1]
      rfl
    · rw [if_neg ha] at heq
      by_cases hce : c.isEmpty = true
      · rw [if_pos hce] at heq
        exact ih (i + 1) ps h0 evs chunks calls ps2 hb heq hfalse
      · rw [if_neg hce] at heq
        rcases hrec : streamGo abortAt (i + 1) (addChunk ps c).state
            (h0 || !(addChunk ps c).calls.isEmpty) rest
          with ⟨evs2, ch2, ca2, pss, h2⟩
        rw [hrec] at heq
        simp only [Prod.mk.injEq] at heq
        obtain ⟨h1, -, -, -, h5⟩ := heq
        have hBool : (h0 || !(addChunk ps c).calls.isEmpty) = false := by
          by_contra hcon
          have htt : (h0 || !(addChunk ps c).calls.isEmpty) = true := by
            cases hx : h0 || !(addChunk ps c).calls.isEmpty with
            | true => rfl
            | false => exact absurd hx hcon
          rw [htt] at hrec
          obtain ⟨-, hh2⟩ := streamGo_true_inv abortAt rest (i + 1)
            (addChunk ps c).state evs2 ch2 ca2 pss h2 hrec
          rw [hh2] at h5
          rw [← h5] at hfalse
          exact absurd hfalse (by simp)
        have hh0 : h0 = false := by
          cases hx : h0 with
          | false => rfl
          | true =>
            rw [hx] at hBool
            exact absurd hBool (by simp)
        have hcalls : (addChunk ps c).calls = [] := by
          rw [hh0, Bool.false_or] at hBool
          cases hx : (addChunk ps c).calls with
          | nil => rfl
          | cons a b =>
            rw [hx] at hBool
            exact absurd hBool (by simp)
        rw [hBool] at hrec
        have hev2 := ih (i + 1) (addChunk ps c).state false evs2 ch2 ca2 pss h2
          hrec (h5.trans hfalse)
        rw [← h1, hcalls]
        by_cases htxt : (!(addChunk ps c).text.isEmpty && !h0) = true
        · rw [if_pos htxt]
          simp only [List.map_nil, List.nil_append, List.singleton_append,
            List.all_cons]
          rw [hev2]
          rfl
        · rw [if_neg htxt]
          simp only [List.map_nil, List.nil_append]
          exact hev2

/-- The stream loop never emits a text event after a `tool_call` event. -/
theorem streamGo_noTextAfter (abortAt : Option Nat) :
    ∀ (frags : List Chars) (i : Nat) (ps : PState) (h0 : Bool)
      (evs : List AgentEvent) (chunks : List Chars) (calls : List ToolCall)
      (ps2 : PState) (hb : Bool),
      streamGo abortAt i ps h0 frags = (evs, chunks, calls, ps2, hb) →
      noTextAfterToolEv evs = true := by
  intro frags
  induction frags with
  | nil =>
    intro i ps h0 evs chunks calls ps2 hb heq
    simp only [streamGo, Prod.mk.injEq] at heq
    obtain ⟨h1, -⟩ := heq
    rw [← h1]
    rfl
  | cons c rest ih =>
    intro i ps h0 evs chunks calls ps2 hb heq
    simp only [streamGo] at heq
    by_cases ha : chunkAborted abortAt i = true
    · rw [if_pos ha] at heq
      simp only [Prod.mk.injEq] at heq
      obtain ⟨h1, -⟩ := heq
      rw [← h1]
      rfl
    · rw [if_neg ha] at heq
      by_cases hce : c.isEmpty = true
      · rw [if_pos hce] at heq
        exact ih (i + 1) ps h0 evs chunks calls ps2 hb heq
      · rw [if_neg hce] at heq
        rcases hrec : streamGo abortAt (i + 1) (addChunk ps c).state
            (h0 || !(addChunk ps c).calls.isEmpty) rest
          with ⟨evs2, ch2, ca2, pss, h2⟩
        rw [hrec] at heq
        simp only [Prod.mk.injEq] at heq
        obtain ⟨h1, -⟩ := heq
        rw [← h1]
        by_cases hcalls : (addChunk ps c).calls.isEmpty = true
        · have hcnil : (addChunk ps c).calls = [] := by
            cases hx : (addChunk ps c).calls with
            | nil => rfl
            | cons a b =>
              rw [hx] at hcalls
              exact absurd hcalls (by simp)
          rw [hcnil] at hrec
          simp only [List.isEmpty_nil, Bool.not_true, Bool.or_false] at hrec
          have hrest := ih (i + 1) (addChunk ps c).state h0 evs2 ch2 ca2 pss h2 hrec
          rw [hcnil]
          simp only [List.map_nil, List.nil_append]
          by_cases htxt : (!(addChunk ps c).text.isEmpty && !h0) = true
          · rw [if_pos htxt]
            simp only [List.singleton_append, noTextAfterToolEv]
            exact hrest
          · rw [if_neg htxt]
            simp only [List.nil_append]
            exact hrest
        · have hcons : ∃ a b, (addChunk ps c).calls = a :: b := by
            cases hx : (addChunk ps c).calls with
            | nil =>
              rw [hx] at hcalls
              exact absurd rfl hcalls
            | cons a b => exact ⟨a, b, rfl⟩
          obtain ⟨a, b, hab⟩ := hcons
          rw [hab] at hrec
          simp only [List.isEmpty_cons, Bool.not_false, Bool.or_true] at hrec
          obtain ⟨hall2, -⟩ := streamGo_true_inv abortAt rest (i + 1)
            (addChunk ps c).state evs2 ch2 ca2 pss h2 hrec
          rw [hab]
          simp only [List.map_cons, List.cons_append]
          by_cases htxt : (!(addChunk ps c).text.isEmpty && !h0) = true
          · rw [if_pos htxt]
            simp only [List.singleton_append, List.cons_append, noTextAfterToolEv]
            simp only [List.append_eq, List.all_append]
            rw [all_not_text_map_toolCall, hall2]
            rfl
          · rw [if_neg htxt]
            simp only [List.nil_append, noTextAfterToolEv]
            simp only [List.append_eq, List.all_append]
            rw [all_not_text_map_toolCall, hall2]
            rfl

/-- C8 (amended): within one turn, no text event is forwarded after a
`tool_call` event has been emitted — later fragments' text and the
end-of-stream flush are suppressed once any tool call is detected.  (The
`addChunk` call that completes the first tool block still forwards its
own returned text, which includes plain text located after the closing
delimiter inside the same fragment; that text event precedes the
`tool_call` event — see the counterexample.) -/
theorem claim_C8_amended (frags : List Chars) (abortAt : Option Nat) :
    noTextAfterToolEv (streamTurn frags abortAt).events = true := by
  unfold streamTurn
  rcases hrec : streamGo abortAt 0 pInit false frags
    with ⟨evs, chunks, calls, ps, hasTool⟩
  dsimp only
  cases hasTool with
  | true =>
    have hgo := streamGo_noTextAfter abortAt frags 0 pInit false
      evs chunks calls ps true hrec
    simp only [Bool.not_true, Bool.and_false]
    rw [if_neg (show ¬ ((false : Bool) = true) by simp), List.append_nil]
    exact hgo
  | false =>
    have hnotool := streamGo_false_inv abortAt frags 0 pInit false
      evs chunks calls ps false hrec rfl
    rw [noTextAfterToolEv_no_toolCall_append evs _ hnotool]
    by_cases htxt : (!(flushText ps).isEmpty && !false) = true
    · rw [if_pos htxt]
      rfl
    · rw [if_neg htxt]
      rfl

set_option maxRecDepth 8000 in
/-- C8 counterexample: a single fragment completing a tool block and then
carrying more plain text still gets that text forwarded as a text event
(`HiALL THIS IS ` includes the post-block text), although the claim says
no further text is forwarded once the tool call in that same fragment is
detected. -/
theorem claim_C8_counterexample :
    streamTurn ["Hi<tool>name: t\nparameters: \x7b\x7d</tool>ALL THIS IS AFTER!".data] none
      = ⟨[.text "HiALL THIS IS ".data, .toolCall ⟨"t".data, .obj .nil⟩],
        "Hi<tool>name: t\nparameters: \x7b\x7d</tool>ALL THIS IS AFTER!".data,
        [⟨"t".data, .obj .nil⟩]⟩ := by
  rfl

/-! ## C9: cancellation behaviour -/

/-- A turn streamed with a cancellation signal before fragment `k`
consumes exactly the first `k - i` remaining fragments: the loop output
equals the un-aborted loop run on that prefix. -/
theorem streamGo_abort_take (k : Nat) :
    ∀ (frags : List Chars) (i : Nat) (ps : PState) (h0 : Bool),
      streamGo (some k) i ps h0 frags
        = streamGo none i ps h0 (frags.take (k - i)) := by
  intro frags
  induction frags with
  | nil =>
    intro i ps h0
    rw [List.take_nil]
    rfl
  | cons c rest ih =>
    intro i ps h0
    by_cases hk : k ≤ i
    · have hz : k - i = 0 := Nat.sub_eq_zero_of_le hk
      have hab : chunkAborted (some k) i = true := by
        simp [chunkAborted, hk]
      rw [hz, List.take_zero]
      simp only [streamGo]
      rw [if_pos hab]
    · have hsub : k - i = (k - (i + 1)) + 1 := by omega
      rw [hsub, List.take_succ_cons]
      simp only [streamGo]
      rw [if_neg (show ¬ chunkAborted (some k) i = true by
        simp [chunkAborted]; omega)]
      rw [if_neg (show ¬ chunkAborted none i = true by
        simp [chunkAborted])]
      by_cases hce : c.isEmpty = true
      · rw [if_pos hce, if_pos hce]
        exact ih (i + 1) ps h0
      · rw [if_neg hce, if_neg hce]
        rw [ih (i + 1) (addChunk ps c).state
          (h0 || !(addChunk ps c).calls.isEmpty)]

/-- One turn with mid-stream cancellation before fragment `k` behaves
exactly like an un-aborted turn over the first `k` fragments. -/
theorem streamTurn_abort_take (frags : List Chars) (k : Nat) :
    streamTurn frags (some k) = streamTurn (frags.take k) none := by
  unfold streamTurn
  rw [streamGo_abort_take k frags 0 pInit false, Nat.sub_zero]

/-- C9 (amended): cancellation stops fragment consumption — a turn
cancelled before fragment `k` behaves exactly like an un-aborted turn on
the first `k` fragments — and a turn whose top-of-loop check observes the
signal emits only the aborted error event.  (Contrary to the claim, a
mid-stream cancellation does not abort the turn in progress: the
already-consumed prefix is processed normally, so its flush text event is
still emitted after the cancellation point, tool calls parsed from the
prefix are still executed, and when the prefix has no tool call the turn
ends in `done` — see the counterexample.) -/
theorem claim_C9_amended :
    (∀ (frags : List Chars) (k : Nat),
        streamTurn frags (some k) = streamTurn (frags.take k) none)
    ∧ (∀ (maxTurns : Nat) (turns : Nat → List Chars)
         (abortPt : Option (Nat × Nat)) (exec : ToolCall → Json)
         (rem tcnt : Nat),
        topAborted abortPt (tcnt + 1) = true →
        execGo maxTurns turns abortPt exec (rem + 1) tcnt
          = [.errorEv "Execution aborted by user".data]) := by
  constructor
  · intro frags k
    exact streamTurn_abort_take frags k
  · intro maxTurns turns abortPt exec rem tcnt htop
    simp only [execGo]
    rw [if_pos htop]

/-- C9 witness: a run whose cancellation is observed at the top of turn 1
emits only the aborted error event. -/
theorem claim_C9_witness :
    topAborted (some (0, 0)) (0 + 1) = true ∧
    execGo 5 (fun _ => []) (some (0, 0)) exec0 (4 + 1) 0
      = [.errorEv "Execution aborted by user".data] :=
  ⟨by decide,
   claim_C9_amended.2 5 (fun _ => []) (some (0, 0)) exec0 4 0 (by decide)⟩

set_option maxRecDepth 8000 in
/-- C9 counterexample: with cancellation set during turn 1 before its
second fragment, (a) a turn whose consumed prefix has no tool call still
emits its flush text after the cancellation point and terminates with
`done`, not the aborted error; (b) a turn whose consumed prefix parsed a
tool call still executes that tool after cancellation, emitting its
`tool_result` before the aborted error. -/
theorem claim_C9_counterexample :
    executeModel 2
        (fun n => if n = 1 then ["hi there everyone!".data, "x".data] else [])
        (some (1, 1)) exec0
      = [.text "hi there eve".data, .text "ryone!".data, .done]
    ∧ executeModel 2
        (fun n => if n = 1 then
            ["<tool>name: t\nparameters: \x7b\x7d</tool>".data, "y".data]
          else [])
        (some (1, 1)) exec0
      = [.toolCall ⟨"t".data, .obj .nil⟩,
         .toolResult ⟨"t".data, .obj .nil⟩ .null,
         .errorEv "Execution aborted by user".data] :=
  ⟨rfl, rfl⟩

end LensOS
